import Mathlib

/-!
# Verification of the `kvs` log-structured storage engine

A shallow embedding of the repository's core (`src/engine/olskv.rs`,
`src/server.rs`, `src/thread_pool/sharedq_tp.rs`) as executable Lean
definitions, with theorems checking the natural-language specification
against the code.

The engine is modelled sequentially: the on-disk state is a list of log
files, each file a list of length-framed records ("chunks"); the in-memory
key directory is an association list from keys to log pointers; the
operations `set`, `get`, `remove`, `compact_logs` and `open` are translated
line by line from `olskv.rs`.  Machine integers (`u64`, `u8`) are modelled
as `Nat`: none of the counters involved can realistically overflow and the
code performs no wrapping arithmetic on them.
-/

namespace Kvs

/-- From `olskv.rs`: `const COMPACT_THRESHOLD: u64 = 2000000;`. -/
def COMPACT_THRESHOLD : Nat := 2000000

/-- From `olskv.rs`: `const LOG_WRITE: u8 = 1;` (filename flag `?`). -/
def LOG_WRITE : Nat := 1

/-- From `olskv.rs`: `const LOG_COMP: u8 = 2;` (filename flag `#`). -/
def LOG_COMP : Nat := 2

/-- From `common.rs`: `enum Command { Set { key, value }, Get { key }, Rm { key } }`. -/
inductive Command where
  | Set (key value : String)
  | Get (key : String)
  | Rm (key : String)
deriving DecidableEq, Repr

/-- Number of bytes `bincode::serialize` produces for a command: a 4-byte
`u32` enum tag, and for each string an 8-byte `u64` length followed by the
UTF-8 bytes. -/
def cmdSize : Command → Nat
  | .Set k v => 20 + k.utf8ByteSize + v.utf8ByteSize
  | .Get k => 12 + k.utf8ByteSize
  | .Rm k => 12 + k.utf8ByteSize

theorem cmdSize_pos (c : Command) : 0 < cmdSize c := by
  cases c <;> (simp only [cmdSize]; omega)

/-- One framed region of a log file: either a complete serialized command,
or `bad n`, a region of `n` bytes that does not deserialize to a command
(e.g. the torn tail left by a crash mid-append). -/
inductive Chunk where
  | ok (c : Command)
  | bad (nbytes : Nat)
deriving DecidableEq, Repr

/-- Byte size of a chunk. -/
def chunkSize : Chunk → Nat
  | .ok c => cmdSize c
  | .bad n => n

/-- Total byte size of a file body (`writer.stream_position()` after seeking
to the end). -/
def chunksSize (l : List Chunk) : Nat := (l.map chunkSize).sum

theorem chunksSize_nil : chunksSize [] = 0 := rfl

theorem chunksSize_cons (ch : Chunk) (l : List Chunk) :
    chunksSize (ch :: l) = chunkSize ch + chunksSize l := by
  simp [chunksSize]

theorem chunksSize_append (l l' : List Chunk) :
    chunksSize (l ++ l') = chunksSize l + chunksSize l' := by
  simp [chunksSize]

/-- A chunk is a well-formed engine record: a complete `Set` or `Rm`
command.  (`Get` commands are never appended by the engine and make
`build_key_dir` fail; `bad` regions appear only in torn files.) -/
def chunkOk : Chunk → Bool
  | .ok (.Set _ _) => true
  | .ok (.Rm _) => true
  | _ => false

theorem chunkSize_pos_of_ok {ch : Chunk} (h : chunkOk ch = true) : 0 < chunkSize ch := by
  match ch with
  | .ok c => exact cmdSize_pos c
  | .bad _ => simp [chunkOk] at h

/-- One on-disk log file.  `state` and `id` are the data encoded in its
filename `<flag><id>.log`; `data` is its byte content, at record
granularity.  -/
structure LogFile where
  state : Nat
  id : Nat
  data : List Chunk
deriving DecidableEq, Repr

/-- From `olskv.rs`: `struct LogPointer { pos, size, log, log_state }`.  The
sequential model collapses the three atomic cells into plain fields; claim
C7 treats the cell structure separately. -/
structure LogPointer where
  pos : Nat
  size : Nat
  log : Nat
  logState : Nat
deriving DecidableEq, Repr

/-- Positional read (`read_exact_at` + `bincode::deserialize`): reading
`size` bytes at offset `pos` of a file body yields a command exactly when
the offset is a record boundary carrying a complete command of that size;
any other byte range fails to deserialize. -/
def readHead : Chunk → Nat → Option Command
  | .ok c, size => if cmdSize c = size then some c else none
  | .bad _, _ => none

def readAt : List Chunk → Nat → Nat → Option Command
  | [], _, _ => none
  | ch :: rest, pos, size =>
    if pos = 0 then readHead ch size
    else if chunkSize ch ≤ pos then readAt rest (pos - chunkSize ch) size
    else none

theorem readAt_nil (pos size : Nat) : readAt [] pos size = none := rfl

theorem readAt_cons (ch : Chunk) (rest : List Chunk) (pos size : Nat) :
    readAt (ch :: rest) pos size =
      if pos = 0 then readHead ch size
      else if chunkSize ch ≤ pos then readAt rest (pos - chunkSize ch) size
      else none := rfl

/-- `File::open` inside `LogReader::read_log`: locate the file whose
filename encodes the pointer's `(log, log_state)`. -/
def findLog : List LogFile → Nat → Nat → Option LogFile
  | [], _, _ => none
  | f :: fs, log, lstate =>
    if f.id = log ∧ f.state = lstate then some f else findLog fs log lstate

theorem findLog_nil (log lstate : Nat) : findLog [] log lstate = none := rfl

theorem findLog_cons (f : LogFile) (fs : List LogFile) (log lstate : Nat) :
    findLog (f :: fs) log lstate =
      if f.id = log ∧ f.state = lstate then some f else findLog fs log lstate := rfl

/-- `LogReader::read_log` followed by `bincode::deserialize`: dereference a
log pointer against the set of on-disk files. -/
def readLogF (files : List LogFile) (p : LogPointer) : Option Command :=
  match findLog files p.log p.logState with
  | none => none
  | some f => readAt f.data p.pos p.size

/-! ## The key directory

`crossbeam_skiplist::SkipMap<String, LogPointer>` is modelled as an
association list with pairwise-distinct keys; `insert` replaces the entry
of an existing key in place. -/

abbrev KeyDir := List (String × LogPointer)

/-- `SkipMap::get`. -/
def kdGet : KeyDir → String → Option LogPointer
  | [], _ => none
  | e :: rest, k => if e.1 = k then some e.2 else kdGet rest k

/-- `SkipMap::insert` (replaces the value of an existing key). -/
def kdInsert : KeyDir → String → LogPointer → KeyDir
  | [], k, p => [(k, p)]
  | e :: rest, k, p => if e.1 = k then (k, p) :: rest else e :: kdInsert rest k p

/-- `SkipMap::remove`. -/
def kdRemove : KeyDir → String → KeyDir
  | [], _ => []
  | e :: rest, k => if e.1 = k then rest else e :: kdRemove rest k

/-- The keys of a key directory, in entry order. -/
def kdKeys (kd : KeyDir) : List String := kd.map (·.1)

theorem kdKeys_nil : kdKeys [] = [] := rfl

theorem kdKeys_cons (e : String × LogPointer) (rest : KeyDir) :
    kdKeys (e :: rest) = e.1 :: kdKeys rest := rfl

theorem kdGet_insert_self (kd : KeyDir) (k : String) (p : LogPointer) :
    kdGet (kdInsert kd k p) k = some p := by
  induction kd with
  | nil => simp [kdInsert, kdGet]
  | cons e rest ih =>
    by_cases h : e.1 = k
    · simp [kdInsert, h, kdGet]
    · simp [kdInsert, h, kdGet, ih]

theorem kdGet_insert_ne (kd : KeyDir) (k q : String) (p : LogPointer) (h : q ≠ k) :
    kdGet (kdInsert kd k p) q = kdGet kd q := by
  have h1 : ¬ (k = q) := fun hh => h hh.symm
  induction kd with
  | nil => simp [kdInsert, kdGet, h1]
  | cons e rest ih =>
    by_cases he : e.1 = k
    · subst he
      simp [kdInsert, kdGet, h1]
    · simp only [kdInsert, if_neg he, kdGet]
      rw [ih]

theorem kdGet_eq_none_of_not_mem {kd : KeyDir} {k : String} (h : k ∉ kdKeys kd) :
    kdGet kd k = none := by
  induction kd with
  | nil => simp [kdGet]
  | cons e rest ih =>
    rw [kdKeys_cons, List.mem_cons, not_or] at h
    have h1 : ¬ (e.1 = k) := fun hh => h.1 hh.symm
    simp only [kdGet, if_neg h1]
    exact ih h.2

theorem kdGet_remove_self (kd : KeyDir) (k : String)
    (hnd : (kdKeys kd).Nodup) : kdGet (kdRemove kd k) k = none := by
  induction kd with
  | nil => simp [kdRemove, kdGet]
  | cons e rest ih =>
    rw [kdKeys_cons, List.nodup_cons] at hnd
    by_cases h : e.1 = k
    · subst h
      simp only [kdRemove, if_pos rfl]
      exact kdGet_eq_none_of_not_mem hnd.1
    · simp only [kdRemove, if_neg h, kdGet, if_neg h]
      exact ih hnd.2

theorem kdGet_remove_ne (kd : KeyDir) (k q : String) (h : q ≠ k) :
    kdGet (kdRemove kd k) q = kdGet kd q := by
  have h1 : ¬ (k = q) := fun hh => h hh.symm
  induction kd with
  | nil => simp [kdRemove]
  | cons e rest ih =>
    by_cases he : e.1 = k
    · subst he
      simp [kdRemove, kdGet, h1]
    · simp only [kdRemove, if_neg he, kdGet]
      rw [ih]

theorem kdKeys_insert_mem {kd : KeyDir} {k x : String} {p : LogPointer}
    (h : x ∈ kdKeys (kdInsert kd k p)) : x ∈ kdKeys kd ∨ x = k := by
  induction kd with
  | nil =>
    rw [kdInsert, kdKeys_cons] at h
    simp only [kdKeys_nil] at h ⊢
    rcases List.mem_cons.mp h with h | h
    · exact Or.inr h
    · simp at h
  | cons e rest ih =>
    by_cases he : e.1 = k
    · rw [kdInsert, if_pos he, kdKeys_cons, List.mem_cons] at h
      rcases h with h | h
      · exact Or.inr h
      · exact Or.inl (by rw [kdKeys_cons]; exact List.mem_cons_of_mem _ h)
    · rw [kdInsert, if_neg he, kdKeys_cons, List.mem_cons] at h
      rcases h with h | h
      · exact Or.inl (by rw [kdKeys_cons, h]; exact List.mem_cons_self _ _)
      · rcases ih h with h | h
        · exact Or.inl (by rw [kdKeys_cons]; exact List.mem_cons_of_mem _ h)
        · exact Or.inr h

theorem kdKeys_insert_nodup (kd : KeyDir) (k : String) (p : LogPointer)
    (hnd : (kdKeys kd).Nodup) : (kdKeys (kdInsert kd k p)).Nodup := by
  induction kd with
  | nil => simp [kdInsert, kdKeys]
  | cons e rest ih =>
    rw [kdKeys_cons, List.nodup_cons] at hnd
    by_cases he : e.1 = k
    · subst he
      rw [kdInsert, if_pos rfl, kdKeys_cons, List.nodup_cons]
      exact hnd
    · rw [kdInsert, if_neg he, kdKeys_cons, List.nodup_cons]
      refine ⟨fun hmem => ?_, ih hnd.2⟩
      rcases kdKeys_insert_mem hmem with h | h
      · exact hnd.1 h
      · exact he h

theorem kdKeys_remove_subset (kd : KeyDir) (k : String) :
    ∀ x ∈ kdKeys (kdRemove kd k), x ∈ kdKeys kd := by
  induction kd with
  | nil => simp [kdRemove]
  | cons e rest ih =>
    intro x hx
    by_cases he : e.1 = k
    · rw [kdRemove, if_pos he] at hx
      rw [kdKeys_cons]
      exact List.mem_cons_of_mem _ hx
    · rw [kdRemove, if_neg he, kdKeys_cons, List.mem_cons] at hx
      rw [kdKeys_cons, List.mem_cons]
      rcases hx with hx | hx
      · exact Or.inl hx
      · exact Or.inr (ih x hx)

theorem kdKeys_remove_nodup (kd : KeyDir) (k : String)
    (hnd : (kdKeys kd).Nodup) : (kdKeys (kdRemove kd k)).Nodup := by
  induction kd with
  | nil => simp [kdRemove, kdKeys]
  | cons e rest ih =>
    rw [kdKeys_cons, List.nodup_cons] at hnd
    by_cases he : e.1 = k
    · rw [kdRemove, if_pos he]
      exact hnd.2
    · rw [kdRemove, if_neg he, kdKeys_cons, List.nodup_cons]
      exact ⟨fun hh => hnd.1 (kdKeys_remove_subset rest k _ hh), ih hnd.2⟩

/-! ## Reading established records -/

theorem readAt_append_of_some {l : List Chunk} {pos size : Nat} {c : Command}
    (h : readAt l pos size = some c) (l' : List Chunk) :
    readAt (l ++ l') pos size = some c := by
  induction l generalizing pos with
  | nil => simp [readAt_nil] at h
  | cons ch rest ih =>
    rw [readAt_cons] at h
    rw [List.cons_append, readAt_cons]
    by_cases h0 : pos = 0
    · rw [if_pos h0] at h ⊢
      exact h
    · rw [if_neg h0] at h ⊢
      by_cases hle : chunkSize ch ≤ pos
      · rw [if_pos hle] at h ⊢
        exact ih h
      · rw [if_neg hle] at h
        exact absurd h (by simp)

theorem readAt_at_boundary {pre : List Chunk} (c : Command) (post : List Chunk)
    (hpos : ∀ ch ∈ pre, 0 < chunkSize ch) :
    readAt (pre ++ Chunk.ok c :: post) (chunksSize pre) (cmdSize c) = some c := by
  induction pre with
  | nil => simp [readAt_cons, chunksSize, readHead]
  | cons ch rest ih =>
    have hch : 0 < chunkSize ch := hpos ch (List.mem_cons_self _ _)
    have hrest : ∀ x ∈ rest, 0 < chunkSize x := fun x hx => hpos x (List.mem_cons_of_mem _ hx)
    rw [List.cons_append, readAt_cons, chunksSize_cons]
    rw [if_neg (by omega), if_pos (by omega)]
    have heq : chunkSize ch + chunksSize rest - chunkSize ch = chunksSize rest := by omega
    rw [heq]
    exact ih hrest

/-! ## Filenames and directory listing

`generate_full_log_path` renders `<flag><id>.log`; `get_sorted_log_files`
lists the directory and sorts the paths, i.e. sorts the filenames as byte
strings (all names here are ASCII).  `parse_filename` recovers `(id, state)`
from the name; since the model stores a file's `(state, id)` directly and
derives the name from them, the parse is the identity on those fields. -/

/-- `get_state_flag`. -/
def stateFlagChars (st : Nat) : List Char :=
  if st = LOG_WRITE then ['?'] else if st = LOG_COMP then ['#'] else []

/-- The characters of `format!("{}{}.{}", flag, log, "log")`. -/
def fileNameChars (f : LogFile) : List Char :=
  stateFlagChars f.state ++ (toString f.id).data ++ ('.' :: ['l', 'o', 'g'])

/-- Byte-lexicographic strict order on ASCII names, as `PathBuf` ordering
compares them. -/
def charsLt : List Char → List Char → Bool
  | [], [] => false
  | [], _ :: _ => true
  | _ :: _, [] => false
  | a :: as, b :: bs => if a < b then true else if b < a then false else charsLt as bs

/-- Insertion step of a stable ascending sort by filename. -/
def insertFile (f : LogFile) : List LogFile → List LogFile
  | [] => [f]
  | g :: gs => if charsLt (fileNameChars g) (fileNameChars f) then g :: insertFile f gs
               else f :: g :: gs

/-- `get_sorted_log_files`: the directory listing sorted by filename
(`files.sort()` on the paths). -/
def sortByName : List LogFile → List LogFile
  | [] => []
  | f :: fs => insertFile f (sortByName fs)

/-! ## Errors, engine state and operations -/

/-- The error kinds of `error.rs` that the modelled code can produce. -/
inductive KvsError where
  | KeyNotFound
  | UnexpectedCommandType
  | IoFailure
deriving DecidableEq, Repr

deriving instance DecidableEq for Except

/-- The shared state behind `OptLogStructKvs` (every clone sees the same
state): the on-disk files of the store directory, the log writer's segment
id and append offset, the keydir, the segment-id counter and the
uncompacted-bytes counter.  The reader pool's handle cache is a
performance artifact with no sequential observable effect and is not
modelled. -/
structure EngineState where
  files : List LogFile
  writerLog : Nat
  writerPos : Nat
  keyDir : KeyDir
  logCounter : Nat
  uncompacted : Nat
deriving DecidableEq, Repr

/-- `LogWriter::write_cmd` on the active segment: append the serialized
command to the file whose name is `(LOG_WRITE, writerLog)` and advance
`pos` by the number of bytes written. -/
def appendToFile (files : List LogFile) (wlog : Nat) (c : Command) : List LogFile :=
  files.map fun f =>
    if f.state = LOG_WRITE ∧ f.id = wlog then { f with data := f.data ++ [Chunk.ok c] }
    else f

/-- `extract_key_from_cmd`. -/
def extractKey : Command → String
  | .Rm k => k
  | .Get k => k
  | .Set k _ => k

/-- `LogPointer::new(pos, size, log, LOG_WRITE)` values produced by `set`. -/
def mkWritePtr (pos size log : Nat) : LogPointer := ⟨pos, size, log, LOG_WRITE⟩

/-- The body of `compact_logs`'s keydir iteration: read each live entry's
record, give the entry a pointer into the compacted segment at the current
compacted offset, and append the record bytes to the compacted segment.
Reads use the pre-roll files (live pointers only reference those).
Returns (result, rewritten keydir entries, compacted segment body). -/
def compactLoop (files : List LogFile) (compId : Nat) :
    KeyDir → Nat → Except KvsError Unit × KeyDir × List Chunk
  | [], _ => (Except.ok (), [], [])
  | (k, p) :: rest, compPos =>
    match readLogF files p with
    | none => (Except.error KvsError.IoFailure, (k, p) :: rest, [])
    | some c =>
      let out := compactLoop files compId rest (compPos + p.size)
      (out.1, (k, (⟨compPos, p.size, compId, LOG_COMP⟩ : LogPointer)) :: out.2.1,
       Chunk.ok c :: out.2.2)

/-- `OptLogStructKvs::compact_logs`: snapshot the victim set, roll the
writer to a fresh write segment, copy every live record into a fresh
compacted segment while redirecting its pointer, then delete every victim
file. -/
def compactLogs (s : EngineState) : Except KvsError Unit × EngineState :=
  -- the victim snapshot is `sortByName s.files`; the roll installs the fresh
  -- write segment `?logCounter.log` and the compactor writes
  -- `#(logCounter+1).log`; on an error the already-migrated pointer prefix,
  -- the rolled writer and the partially written compacted file remain, and
  -- no victim is deleted
  match compactLoop s.files (s.logCounter + 1) s.keyDir 0 with
  | (Except.error e, out) =>
    (Except.error e,
     { s with
        files := (s.files ++ [(⟨LOG_WRITE, s.logCounter, []⟩ : LogFile)]) ++
                   [(⟨LOG_COMP, s.logCounter + 1, out.2⟩ : LogFile)],
        writerLog := s.logCounter,
        writerPos := 0,
        keyDir := out.1,
        logCounter := s.logCounter + 2 })
  | (Except.ok (), out) =>
    (Except.ok (),
     { s with
        files := ((s.files ++ [(⟨LOG_WRITE, s.logCounter, []⟩ : LogFile)]) ++
                    [(⟨LOG_COMP, s.logCounter + 1, out.2⟩ : LogFile)]).filter fun f =>
                      !((sortByName s.files).any fun g => g.id == f.id && g.state == f.state),
        writerLog := s.logCounter,
        writerPos := 0,
        keyDir := out.1,
        logCounter := s.logCounter + 2 })

/-- `OptLogStructKvs::update_uncompacted_size`: add the size of the
superseded record, and, when the running total crosses
`COMPACT_THRESHOLD` (the try-lock always succeeds sequentially), run
compaction and reset the counter. -/
def updateUncompacted (s : EngineState) (old : Option LogPointer) :
    Except KvsError Unit × EngineState :=
  match old with
  | none => (Except.ok (), s)
  | some p =>
    -- `fetch_add` has already raised the counter to `uncompacted + p.size`
    -- when the threshold comparison happens; a failing compaction leaves it
    -- there, a successful one is followed by `store(0)`
    if COMPACT_THRESHOLD ≤ s.uncompacted + p.size then
      match compactLogs { s with uncompacted := s.uncompacted + p.size } with
      | (Except.error e, s1) => (Except.error e, s1)
      | (Except.ok (), s1) => (Except.ok (), { s1 with uncompacted := 0 })
    else (Except.ok (), { s with uncompacted := s.uncompacted + p.size })

/-- `KvsEngine::set for OptLogStructKvs`: under the writer mutex read
`(pos, log)` and append the serialized command; then look up the prior
pointer, insert the new one and account the superseded bytes. -/
def setOp (s : EngineState) (k v : String) : Except KvsError Unit × EngineState :=
  updateUncompacted
    { s with files := appendToFile s.files s.writerLog (Command.Set k v),
             writerPos := s.writerPos + cmdSize (Command.Set k v),
             keyDir := kdInsert s.keyDir (extractKey (Command.Set k v))
               (mkWritePtr s.writerPos (cmdSize (Command.Set k v)) s.writerLog) }
    (kdGet s.keyDir (extractKey (Command.Set k v)))

/-- Dereference a pointer as `get` does: decode the record; a record that
is not a `Set` is `UnexpectedCommandType` (on-disk corruption), a failing
read is an I/O error. -/
def getFromPtr (files : List LogFile) (p : LogPointer) : Except KvsError (Option String) :=
  match readLogF files p with
  | some (.Set _ v) => Except.ok (some v)
  | some _ => Except.error KvsError.UnexpectedCommandType
  | none => Except.error KvsError.IoFailure

/-- `KvsEngine::get for OptLogStructKvs` (read-only). -/
def getOp (s : EngineState) (k : String) : Except KvsError (Option String) :=
  match kdGet s.keyDir k with
  | none => Except.ok none
  | some p => getFromPtr s.files p

/-- `KvsEngine::remove for OptLogStructKvs`: `KeyNotFound` if the keydir
lacks the key; otherwise append a `Rm` command, drop the keydir entry and
account the removed entry's bytes. -/
def removeOp (s : EngineState) (k : String) : Except KvsError Unit × EngineState :=
  if (kdGet s.keyDir k).isSome then
    updateUncompacted
      { s with files := appendToFile s.files s.writerLog (Command.Rm k),
               writerPos := s.writerPos + cmdSize (Command.Rm k),
               keyDir := kdRemove s.keyDir (extractKey (Command.Rm k)) }
      (kdGet s.keyDir (extractKey (Command.Rm k)))
  else (Except.error KvsError.KeyNotFound, s)

/-! ## Open and recovery (`build_key_dir`, `open`) -/

/-- The scan loop of `build_key_dir` over one segment: `while let Ok(cmd) =
bincode::deserialize_from(&mut reader)`, tracking the stream position.
The first region that fails to deserialize ends the scan of this segment;
a `Get` record makes the whole rebuild fail with
`UnexpectedCommandType`. -/
def scanChunks (log lstate : Nat) :
    List Chunk → Nat → KeyDir → Nat → Except KvsError (KeyDir × Nat)
  | [], _, kd, unc => Except.ok (kd, unc)
  | .bad _ :: _, _, kd, unc => Except.ok (kd, unc)
  | .ok (.Set k v) :: rest, pos, kd, unc =>
    scanChunks log lstate rest (pos + cmdSize (Command.Set k v))
      (kdInsert kd k ⟨pos, cmdSize (Command.Set k v), log, lstate⟩)
      (match kdGet kd k with
       | some old => unc + old.size
       | none => unc)
  | .ok (.Rm k) :: rest, pos, kd, unc =>
    match kdGet kd k with
    | some old =>
      scanChunks log lstate rest (pos + cmdSize (Command.Rm k)) (kdRemove kd k)
        (unc + old.size)
    | none => scanChunks log lstate rest (pos + cmdSize (Command.Rm k)) kd unc
  | .ok (.Get _) :: _, _, _, _ => Except.error KvsError.UnexpectedCommandType

/-- The per-file loop of `build_key_dir`, threading the keydir, the
uncompacted total and `log_counter = max(log_counter, log)`. -/
def buildKeyDirFrom (acc : KeyDir × Nat × Nat) :
    List LogFile → Except KvsError (KeyDir × Nat × Nat)
  | [] => Except.ok acc
  | f :: fs =>
    match scanChunks f.id f.state f.data 0 acc.1 acc.2.1 with
    | Except.error e => Except.error e
    | Except.ok (kd, unc) => buildKeyDirFrom (kd, unc, max acc.2.2 f.id) fs

/-- `build_key_dir`: scan the given files in order, returning the rebuilt
keydir, the uncompacted-size total and the largest segment id seen. -/
def buildKeyDir (files : List LogFile) : Except KvsError (KeyDir × Nat × Nat) :=
  buildKeyDirFrom ([], 0, 0) files

/-- The writer segment id `open` picks: the id parsed from the last sorted
filename, or the rebuilt `log_counter` (0) for an empty directory. -/
def openLog (filenames : List LogFile) (cnt : Nat) : Nat :=
  match filenames.getLast? with
  | none => cnt
  | some f => f.id

/-- The directory after `LogWriter::new` ran in `open`: opening
`?log.log` in append-create mode creates it when absent. -/
def openFiles (d : List LogFile) (log : Nat) : List LogFile :=
  if d.any (fun f => f.state == LOG_WRITE && f.id == log) then d
  else d ++ [⟨LOG_WRITE, log, []⟩]

/-- The writer offset after `open`: the size of the active file. -/
def openPos (files1 : List LogFile) (log : Nat) : Nat :=
  match findLog files1 log LOG_WRITE with
  | some f => chunksSize f.data
  | none => 0

/-- `OptLogStructKvs::open`: list and sort the directory, rebuild the
keydir, pick the writer segment from the last sorted filename (creating a
fresh `?0.log` on an empty directory, and creating the file if no segment
of that name exists), and position the writer at end of file. -/
def openDir (d : List LogFile) : Except KvsError EngineState :=
  match buildKeyDir (sortByName d) with
  | Except.error e => Except.error e
  | Except.ok (kd, unc, cnt) =>
    Except.ok { files := openFiles d (openLog (sortByName d) cnt),
                writerLog := openLog (sortByName d) cnt,
                writerPos := openPos (openFiles d (openLog (sortByName d) cnt))
                               (openLog (sortByName d) cnt),
                keyDir := kd, logCounter := cnt + 1, uncompacted := unc }

/-- `open(dir)` followed by `get(k)` on the resulting store. -/
def openGet (d : List LogFile) (k : String) : Except KvsError (Option String) :=
  match openDir d with
  | Except.error e => Except.error e
  | Except.ok s => getOp s k

/-! ## Runs of engine operations -/

/-- A state-changing engine call. -/
inductive Op where
  | set (k v : String)
  | remove (k : String)
deriving DecidableEq, Repr

/-- The state reached after one engine call (errors leave the state the
call produced, exactly as the Rust methods do). -/
def applyOp (s : EngineState) : Op → EngineState
  | .set k v => (setOp s k v).2
  | .remove k => (removeOp s k).2

/-- The engine state after `open` on an empty directory: one empty write
segment `?0.log`, next id 1. -/
def initState : EngineState := ⟨[⟨LOG_WRITE, 0, []⟩], 0, 0, [], 1, 0⟩

/-- Running a sequence of engine calls from a store opened on an empty
directory. -/
def runOps (ops : List Op) : EngineState := ops.foldl applyOp initState

/-- Pointwise update of a specification-level map. -/
def upd (m : String → Option String) (k : String) (v : Option String) :
    String → Option String :=
  fun q => if q = k then v else m q

/-- The specification-level effect of one engine call on the key-value
map. -/
def specStep (m : String → Option String) : Op → (String → Option String)
  | Op.set k v => upd m k (some v)
  | Op.remove k => upd m k none

/-- The specification-level effect of a run: the value of the last `set`
on each key, erased by `remove`. -/
def runVal (ops : List Op) : String → Option String :=
  ops.foldl specStep (fun _ => none)

/-- The value a keydir entry denotes on disk. -/
def valAt (files : List LogFile) (p : LogPointer) : Option String :=
  match readLogF files p with
  | some (.Set _ v) => some v
  | _ => none

/-- The map a keydir together with the disk denotes. -/
def kdView (files : List LogFile) (kd : KeyDir) (k : String) : Option String :=
  (kdGet kd k).bind (valAt files)

/-- Replaying the records of one segment body over a map, as the keydir
rebuild does: a `bad` region ends the segment. -/
def replayChunks (m : String → Option String) : List Chunk → (String → Option String)
  | [] => m
  | .ok (.Set k v) :: rest => replayChunks (upd m k (some v)) rest
  | .ok (.Rm k) :: rest => replayChunks (upd m k none) rest
  | .ok (.Get _) :: rest => replayChunks m rest
  | .bad _ :: _ => m

/-- Replaying a list of segments in order. -/
def replayFiles (m : String → Option String) : List LogFile → (String → Option String)
  | [] => m
  | f :: fs => replayFiles (replayChunks m f.data) fs

/-- The map denoted by a store directory: replay all segments in the
order `open` scans them (sorted by filename). -/
def diskMap (files : List LogFile) : String → Option String :=
  replayFiles (fun _ => none) (sortByName files)

/-! ## Sorted order of the directory shapes the engine maintains

At every operation boundary the store directory holds either a single
write segment or one compacted segment plus one write segment; `#` sorts
before `?` (0x23 < 0x3F), so the compacted segment is always scanned
first and the write segment is always the last sorted filename. -/

theorem stateFlagChars_write : stateFlagChars LOG_WRITE = ['?'] := rfl

theorem stateFlagChars_comp : stateFlagChars LOG_COMP = ['#'] := by
  simp [stateFlagChars, LOG_WRITE, LOG_COMP]

theorem fileNameChars_write (id : Nat) (d : List Chunk) :
    fileNameChars ⟨LOG_WRITE, id, d⟩ = '?' :: ((toString id).data ++ ('.' :: ['l', 'o', 'g'])) := by
  simp [fileNameChars, stateFlagChars_write]

theorem fileNameChars_comp (id : Nat) (d : List Chunk) :
    fileNameChars ⟨LOG_COMP, id, d⟩ = '#' :: ((toString id).data ++ ('.' :: ['l', 'o', 'g'])) := by
  simp [fileNameChars, stateFlagChars_comp]

theorem charsLt_comp_write (xs ys : List Char) :
    charsLt ('#' :: xs) ('?' :: ys) = true := by
  rw [charsLt]
  rw [if_pos (by decide)]

theorem charsLt_write_comp (xs ys : List Char) :
    charsLt ('?' :: xs) ('#' :: ys) = false := by
  rw [charsLt]
  rw [if_neg (by decide), if_pos (by decide)]

theorem sortByName_single (f : LogFile) : sortByName [f] = [f] := rfl

theorem sortByName_pair_cw (ci wi : Nat) (cd wd : List Chunk) :
    sortByName [⟨LOG_COMP, ci, cd⟩, ⟨LOG_WRITE, wi, wd⟩] =
      [⟨LOG_COMP, ci, cd⟩, ⟨LOG_WRITE, wi, wd⟩] := by
  show insertFile ⟨LOG_COMP, ci, cd⟩ [⟨LOG_WRITE, wi, wd⟩] = _
  rw [insertFile]
  rw [fileNameChars_write, fileNameChars_comp, charsLt_write_comp]
  simp

theorem sortByName_pair_wc (ci wi : Nat) (cd wd : List Chunk) :
    sortByName [⟨LOG_WRITE, wi, wd⟩, ⟨LOG_COMP, ci, cd⟩] =
      [⟨LOG_COMP, ci, cd⟩, ⟨LOG_WRITE, wi, wd⟩] := by
  show insertFile ⟨LOG_WRITE, wi, wd⟩ [⟨LOG_COMP, ci, cd⟩] = _
  rw [insertFile]
  rw [fileNameChars_write, fileNameChars_comp, charsLt_comp_write]
  simp [insertFile]

/-! ## The reachable-state invariant -/

/-- Shape of the store directory at operation boundaries, together with
the writer's in-memory offset agreeing with the active file's size. -/
def ShapeInv (s : EngineState) : Prop :=
  (∃ wd, s.files = [⟨LOG_WRITE, s.writerLog, wd⟩] ∧ s.writerPos = chunksSize wd) ∨
  (∃ wd cid cd, cid ≠ s.writerLog ∧ s.writerPos = chunksSize wd ∧
    (s.files = [⟨LOG_COMP, cid, cd⟩, ⟨LOG_WRITE, s.writerLog, wd⟩] ∨
     s.files = [⟨LOG_WRITE, s.writerLog, wd⟩, ⟨LOG_COMP, cid, cd⟩]))

/-- Invariant of every reachable engine state. -/
structure Inv (s : EngineState) : Prop where
  shape : ShapeInv s
  idsLt : ∀ f ∈ s.files, f.id < s.logCounter
  chunksOk : ∀ f ∈ s.files, ∀ ch ∈ f.data, chunkOk ch = true
  nodupKeys : (kdKeys s.keyDir).Nodup
  kdOk : ∀ k p, kdGet s.keyDir k = some p →
    ∃ v, readLogF s.files p = some (Command.Set k v)
  disk : ∀ q, diskMap s.files q = kdView s.files s.keyDir q

theorem inv_initState : Inv initState := by
  refine ⟨Or.inl ⟨[], rfl, rfl⟩, ?_, ?_, ?_, ?_, ?_⟩
  · intro f hf
    simp only [initState, List.mem_singleton] at hf
    subst hf
    decide
  · intro f hf
    simp only [initState, List.mem_singleton] at hf
    subst hf
    intro ch hch
    simp at hch
  · simp [initState, kdKeys]
  · intro k p h
    simp [initState, kdGet] at h
  · intro q
    simp [initState, diskMap, sortByName_single, replayFiles, replayChunks, kdView, kdGet]

/-! ## Appending to the active segment -/

theorem findLog_appendToFile (files : List LogFile) (wlog log st : Nat) (c : Command) :
    findLog (appendToFile files wlog c) log st =
      (findLog files log st).map fun f =>
        if f.state = LOG_WRITE ∧ f.id = wlog then { f with data := f.data ++ [Chunk.ok c] }
        else f := by
  induction files with
  | nil => simp [findLog_nil, appendToFile]
  | cons f fs ih =>
    simp only [appendToFile, List.map_cons] at ih ⊢
    rw [findLog_cons, findLog_cons]
    by_cases hw : f.state = LOG_WRITE ∧ f.id = wlog
    · rw [if_pos hw]
      by_cases hf : f.id = log ∧ f.state = st
      · rw [if_pos (by simpa using hf), if_pos hf]
        simp [hw]
      · rw [if_neg (by simpa using hf), if_neg hf]
        exact ih
    · rw [if_neg hw]
      by_cases hf : f.id = log ∧ f.state = st
      · rw [if_pos hf, if_pos hf]
        simp [hw]
      · rw [if_neg hf, if_neg hf]
        exact ih

theorem readLogF_appendToFile_of_some {files : List LogFile} {p : LogPointer} {c0 : Command}
    (h : readLogF files p = some c0) (wlog : Nat) (c : Command) :
    readLogF (appendToFile files wlog c) p = some c0 := by
  unfold readLogF at h ⊢
  rw [findLog_appendToFile]
  cases hf : findLog files p.log p.logState with
  | none => rw [hf] at h; simp at h
  | some f =>
    rw [hf] at h
    simp only [Option.map_some']
    by_cases hw : f.state = LOG_WRITE ∧ f.id = wlog
    · simp only [if_pos hw]
      exact readAt_append_of_some h _
    · simp only [if_neg hw]
      exact h

theorem valAt_appendToFile {files : List LogFile} {p : LogPointer} {k v : String}
    (h : readLogF files p = some (Command.Set k v)) (wlog : Nat) (c : Command) :
    valAt (appendToFile files wlog c) p = some v := by
  unfold valAt
  rw [readLogF_appendToFile_of_some h]

/-! ## Replay lemmas -/

theorem replayChunks_append {l : List Chunk} (m : String → Option String)
    (h : ∀ ch ∈ l, chunkOk ch = true) (l2 : List Chunk) :
    replayChunks m (l ++ l2) = replayChunks (replayChunks m l) l2 := by
  induction l generalizing m with
  | nil => simp [replayChunks]
  | cons ch rest ih =>
    have hch : chunkOk ch = true := h ch (List.mem_cons_self _ _)
    have hrest : ∀ x ∈ rest, chunkOk x = true := fun x hx => h x (List.mem_cons_of_mem _ hx)
    match ch with
    | .ok (.Set k v) =>
      rw [List.cons_append, replayChunks, replayChunks]
      exact ih _ hrest
    | .ok (.Rm k) =>
      rw [List.cons_append, replayChunks, replayChunks]
      exact ih _ hrest
    | .ok (.Get k) => simp [chunkOk] at hch
    | .bad n => simp [chunkOk] at hch

theorem upd_self (m : String → Option String) (k : String) (v : Option String) :
    upd m k v k = v := by
  simp [upd]

theorem upd_ne (m : String → Option String) (k q : String) (v : Option String)
    (h : q ≠ k) : upd m k v q = m q := by
  simp [upd, h]

/-! ## Views through the keydir -/

/-- Every keydir entry dereferences to a `Set` record carrying its key. -/
def KdOk (files : List LogFile) (kd : KeyDir) : Prop :=
  ∀ k p, kdGet kd k = some p → ∃ v, readLogF files p = some (Command.Set k v)

theorem kdView_appendToFile {files : List LogFile} {kd : KeyDir}
    (hkd : KdOk files kd) (wlog : Nat) (c : Command) (q : String) :
    kdView (appendToFile files wlog c) kd q = kdView files kd q := by
  unfold kdView
  cases hq : kdGet kd q with
  | none => rfl
  | some p =>
    obtain ⟨v, hv⟩ := hkd q p hq
    show (valAt (appendToFile files wlog c) p : Option String) = valAt files p
    unfold valAt
    rw [hv, readLogF_appendToFile_of_some hv]

/-! ## Appending one command to the active segment -/

theorem chunksSize_snoc_ok (l : List Chunk) (c : Command) :
    chunksSize (l ++ [Chunk.ok c]) = chunksSize l + cmdSize c := by
  rw [chunksSize_append]
  simp [chunksSize, chunkSize]

theorem append_active_spec (s : EngineState) (cmd : Command)
    (hsh : ShapeInv s) (hch : ∀ f ∈ s.files, ∀ ch ∈ f.data, chunkOk ch = true)
    (hcmd : chunkOk (Chunk.ok cmd) = true) :
    ShapeInv { s with files := appendToFile s.files s.writerLog cmd,
                      writerPos := s.writerPos + cmdSize cmd } ∧
    (∀ f ∈ appendToFile s.files s.writerLog cmd, ∀ ch ∈ f.data, chunkOk ch = true) ∧
    (∀ f ∈ appendToFile s.files s.writerLog cmd, ∃ g ∈ s.files, f.id = g.id ∧ f.state = g.state) ∧
    readLogF (appendToFile s.files s.writerLog cmd)
      ⟨s.writerPos, cmdSize cmd, s.writerLog, LOG_WRITE⟩ = some cmd ∧
    (∀ q, diskMap (appendToFile s.files s.writerLog cmd) q =
      replayChunks (diskMap s.files) [Chunk.ok cmd] q) := by
  rcases hsh with ⟨wd, hfiles, hpos⟩ | ⟨wd, cid, cd, hcid, hpos, hfiles | hfiles⟩
  · have hw : ∀ ch ∈ wd, chunkOk ch = true := by
      intro ch hc
      exact hch ⟨LOG_WRITE, s.writerLog, wd⟩ (by rw [hfiles]; simp) ch hc
    have hf2 : appendToFile s.files s.writerLog cmd =
        [⟨LOG_WRITE, s.writerLog, wd ++ [Chunk.ok cmd]⟩] := by
      rw [hfiles]
      simp [appendToFile]
    refine ⟨?_, ?_, ?_, ?_, ?_⟩
    · exact Or.inl ⟨wd ++ [Chunk.ok cmd], by simp [hf2], by
        simp [hpos, chunksSize_snoc_ok]⟩
    · intro f hf ch hc
      rw [hf2] at hf
      simp only [List.mem_singleton] at hf
      subst hf
      simp only [List.mem_append, List.mem_singleton] at hc
      rcases hc with hc | hc
      · exact hw ch hc
      · subst hc; exact hcmd
    · intro f hf
      rw [hf2] at hf
      simp only [List.mem_singleton] at hf
      subst hf
      exact ⟨⟨LOG_WRITE, s.writerLog, wd⟩, by rw [hfiles]; simp, rfl, rfl⟩
    · rw [hf2]
      unfold readLogF
      rw [findLog_cons, if_pos ⟨rfl, rfl⟩]
      rw [hpos]
      have : wd ++ [Chunk.ok cmd] = wd ++ Chunk.ok cmd :: [] := rfl
      rw [this]
      exact readAt_at_boundary cmd [] (fun ch hc => chunkSize_pos_of_ok (hw ch hc))
    · intro q
      rw [hf2]
      unfold diskMap
      rw [hfiles, sortByName_single, sortByName_single]
      show replayChunks (fun _ => none) (wd ++ [Chunk.ok cmd]) q = _
      rw [replayChunks_append _ hw]
      rfl
  · -- files = [compacted, write]
    have hw : ∀ ch ∈ wd, chunkOk ch = true := by
      intro ch hc
      exact hch ⟨LOG_WRITE, s.writerLog, wd⟩ (by rw [hfiles]; simp) ch hc
    have hf2 : appendToFile s.files s.writerLog cmd =
        [⟨LOG_COMP, cid, cd⟩, ⟨LOG_WRITE, s.writerLog, wd ++ [Chunk.ok cmd]⟩] := by
      rw [hfiles]
      simp [appendToFile, LOG_COMP, LOG_WRITE]
    refine ⟨?_, ?_, ?_, ?_, ?_⟩
    · exact Or.inr ⟨wd ++ [Chunk.ok cmd], cid, cd, hcid, by
        simp [hpos, chunksSize_snoc_ok], Or.inl (by simp [hf2])⟩
    · intro f hf ch hc
      rw [hf2] at hf
      simp only [List.mem_cons, List.mem_singleton] at hf
      rcases hf with hf | hf | hf
      · subst hf
        exact hch ⟨LOG_COMP, cid, cd⟩ (by rw [hfiles]; simp) ch hc
      · subst hf
        simp only [List.mem_append, List.mem_singleton] at hc
        rcases hc with hc | hc
        · exact hw ch hc
        · subst hc; exact hcmd
      · simp at hf
    · intro f hf
      rw [hf2] at hf
      simp only [List.mem_cons, List.mem_singleton] at hf
      rcases hf with hf | hf | hf
      · subst hf
        exact ⟨⟨LOG_COMP, cid, cd⟩, by rw [hfiles]; simp, rfl, rfl⟩
      · subst hf
        exact ⟨⟨LOG_WRITE, s.writerLog, wd⟩, by rw [hfiles]; simp, rfl, rfl⟩
      · simp at hf
    · rw [hf2]
      unfold readLogF
      rw [findLog_cons, if_neg ?hne, findLog_cons, if_pos ⟨rfl, rfl⟩]
      case hne =>
        intro hcon
        exact hcid hcon.1
      rw [hpos]
      have : wd ++ [Chunk.ok cmd] = wd ++ Chunk.ok cmd :: [] := rfl
      rw [this]
      exact readAt_at_boundary cmd [] (fun ch hc => chunkSize_pos_of_ok (hw ch hc))
    · intro q
      rw [hf2]
      unfold diskMap
      rw [hfiles, sortByName_pair_cw, sortByName_pair_cw]
      show replayChunks (replayChunks (fun _ => none) cd) (wd ++ [Chunk.ok cmd]) q = _
      rw [replayChunks_append _ hw]
      rfl
  · -- files = [write, compacted]
    have hw : ∀ ch ∈ wd, chunkOk ch = true := by
      intro ch hc
      exact hch ⟨LOG_WRITE, s.writerLog, wd⟩ (by rw [hfiles]; simp) ch hc
    have hf2 : appendToFile s.files s.writerLog cmd =
        [⟨LOG_WRITE, s.writerLog, wd ++ [Chunk.ok cmd]⟩, ⟨LOG_COMP, cid, cd⟩] := by
      rw [hfiles]
      simp [appendToFile, LOG_COMP, LOG_WRITE]
    refine ⟨?_, ?_, ?_, ?_, ?_⟩
    · exact Or.inr ⟨wd ++ [Chunk.ok cmd], cid, cd, hcid, by
        simp [hpos, chunksSize_snoc_ok], Or.inr (by simp [hf2])⟩
    · intro f hf ch hc
      rw [hf2] at hf
      simp only [List.mem_cons, List.mem_singleton] at hf
      rcases hf with hf | hf | hf
      · subst hf
        simp only [List.mem_append, List.mem_singleton] at hc
        rcases hc with hc | hc
        · exact hw ch hc
        · subst hc; exact hcmd
      · subst hf
        exact hch ⟨LOG_COMP, cid, cd⟩ (by rw [hfiles]; simp) ch hc
      · simp at hf
    · intro f hf
      rw [hf2] at hf
      simp only [List.mem_cons, List.mem_singleton] at hf
      rcases hf with hf | hf | hf
      · subst hf
        exact ⟨⟨LOG_WRITE, s.writerLog, wd⟩, by rw [hfiles]; simp, rfl, rfl⟩
      · subst hf
        exact ⟨⟨LOG_COMP, cid, cd⟩, by rw [hfiles]; simp, rfl, rfl⟩
      · simp at hf
    · rw [hf2]
      unfold readLogF
      rw [findLog_cons, if_pos ⟨rfl, rfl⟩]
      rw [hpos]
      have : wd ++ [Chunk.ok cmd] = wd ++ Chunk.ok cmd :: [] := rfl
      rw [this]
      exact readAt_at_boundary cmd [] (fun ch hc => chunkSize_pos_of_ok (hw ch hc))
    · intro q
      rw [hf2]
      unfold diskMap
      rw [hfiles, sortByName_pair_wc, sortByName_pair_wc]
      show replayChunks (replayChunks (fun _ => none) cd) (wd ++ [Chunk.ok cmd]) q = _
      rw [replayChunks_append _ hw]
      rfl

/-! ## Compaction -/

theorem readAt_size {l : List Chunk} {pos size : Nat} {c : Command}
    (h : readAt l pos size = some c) : cmdSize c = size := by
  induction l generalizing pos with
  | nil => simp [readAt_nil] at h
  | cons ch rest ih =>
    rw [readAt_cons] at h
    by_cases h0 : pos = 0
    · rw [if_pos h0] at h
      match ch with
      | .ok c2 =>
        rw [readHead] at h
        by_cases hs : cmdSize c2 = size
        · rw [if_pos hs] at h
          cases h
          exact hs
        · rw [if_neg hs] at h
          exact absurd h (by simp)
      | .bad n => exact absurd h (by simp [readHead])
    · rw [if_neg h0] at h
      by_cases hle : chunkSize ch ≤ pos
      · rw [if_pos hle] at h
        exact ih h
      · rw [if_neg hle] at h
        exact absurd h (by simp)

theorem readLogF_size {files : List LogFile} {p : LogPointer} {c : Command}
    (h : readLogF files p = some c) : cmdSize c = p.size := by
  unfold readLogF at h
  cases hf : findLog files p.log p.logState with
  | none => rw [hf] at h; simp at h
  | some f =>
    rw [hf] at h
    exact readAt_size h

theorem kdGet_mem_of_some {kd : KeyDir} {k : String} {p : LogPointer}
    (h : kdGet kd k = some p) : k ∈ kdKeys kd := by
  induction kd with
  | nil => simp [kdGet] at h
  | cons e rest ih =>
    rw [kdGet] at h
    by_cases he : e.1 = k
    · rw [kdKeys_cons, he]
      exact List.mem_cons_self _ _
    · rw [if_neg he] at h
      rw [kdKeys_cons]
      exact List.mem_cons_of_mem _ (ih h)

theorem kdGet_isSome_of_mem {kd : KeyDir} {k : String} (h : k ∈ kdKeys kd) :
    (kdGet kd k).isSome = true := by
  induction kd with
  | nil => simp [kdKeys] at h
  | cons e rest ih =>
    rw [kdKeys_cons, List.mem_cons] at h
    rw [kdGet]
    by_cases he : e.1 = k
    · rw [if_pos he]
      rfl
    · rw [if_neg he]
      rcases h with h | h
      · exact absurd h.symm he
      · exact ih h

theorem kdGet_none_of_nodup_head {e : String × LogPointer} {rest : KeyDir}
    (hnd : (kdKeys (e :: rest)).Nodup) : kdGet rest e.1 = none := by
  rw [kdKeys_cons, List.nodup_cons] at hnd
  exact kdGet_eq_none_of_not_mem hnd.1

/-- Master lemma for the keydir iteration of `compact_logs`: the loop
succeeds, preserves the set of keys, writes only well-formed records, and
each rewritten pointer dereferences inside the compacted body to the same
`Set` record its source pointer held; replaying the compacted body yields
exactly the map the keydir denotes. -/
theorem compactLoop_spec (files : List LogFile) (compId : Nat) :
    ∀ (kd : KeyDir) (pos0 : Nat),
    (∀ k p, kdGet kd k = some p → ∃ v, readLogF files p = some (Command.Set k v)) →
    (kdKeys kd).Nodup →
    (compactLoop files compId kd pos0).1 = Except.ok () ∧
    kdKeys (compactLoop files compId kd pos0).2.1 = kdKeys kd ∧
    (∀ ch ∈ (compactLoop files compId kd pos0).2.2, chunkOk ch = true) ∧
    (∀ k p2, kdGet (compactLoop files compId kd pos0).2.1 k = some p2 →
       p2.log = compId ∧ p2.logState = LOG_COMP ∧ pos0 ≤ p2.pos ∧
       ∃ v, (kdGet kd k).bind (valAt files) = some v ∧
         readAt (compactLoop files compId kd pos0).2.2 (p2.pos - pos0) p2.size =
           some (Command.Set k v)) ∧
    (∀ (m : String → Option String) q,
       replayChunks m (compactLoop files compId kd pos0).2.2 q =
         match kdGet kd q with
         | some p => valAt files p
         | none => m q) := by
  intro kd
  induction kd with
  | nil =>
    intro pos0 hval hnd
    refine ⟨rfl, rfl, by simp [compactLoop], ?_, ?_⟩
    · intro k p2 hk
      simp [compactLoop, kdGet] at hk
    · intro m q
      simp [compactLoop, replayChunks, kdGet]
  | cons e rest ih =>
    intro pos0 hval hnd
    obtain ⟨k, p⟩ := e
    obtain ⟨v, hv⟩ := hval k p (by rw [kdGet, if_pos rfl])
    have hsize : cmdSize (Command.Set k v) = p.size := readLogF_size hv
    have hrestval : ∀ q p2, kdGet rest q = some p2 →
        ∃ w, readLogF files p2 = some (Command.Set q w) := by
      intro q p2 hq
      by_cases hqk : q = k
      · subst hqk
        rw [kdGet_none_of_nodup_head hnd] at hq
        exact absurd hq (by simp)
      · exact hval q p2 (by rw [kdGet, if_neg (fun hh => hqk hh.symm)]; exact hq)
    have hrestnd : (kdKeys rest).Nodup := by
      rw [kdKeys_cons, List.nodup_cons] at hnd
      exact hnd.2
    obtain ⟨ihok, ihkeys, ihch, ihptr, ihreplay⟩ := ih (pos0 + p.size) hrestval hrestnd
    have hkmem : kdGet rest k = none := kdGet_none_of_nodup_head hnd
    have hloop : compactLoop files compId ((k, p) :: rest) pos0 =
        ((compactLoop files compId rest (pos0 + p.size)).1,
         (k, (⟨pos0, p.size, compId, LOG_COMP⟩ : LogPointer)) ::
           (compactLoop files compId rest (pos0 + p.size)).2.1,
         Chunk.ok (Command.Set k v) :: (compactLoop files compId rest (pos0 + p.size)).2.2) := by
      rw [compactLoop, hv]
    rw [hloop]
    refine ⟨ihok, ?_, ?_, ?_, ?_⟩
    · rw [kdKeys_cons, kdKeys_cons, ihkeys]
    · intro ch hch
      rcases List.mem_cons.mp hch with hch | hch
      · subst hch; rfl
      · exact ihch ch hch
    · intro q p2 hq
      rw [kdGet] at hq
      by_cases hqk : k = q
      · subst hqk
        rw [if_pos rfl] at hq
        cases hq
        refine ⟨rfl, rfl, Nat.le_refl _, v, ?_, ?_⟩
        · rw [kdGet, if_pos rfl]
          show valAt files p = some v
          unfold valAt
          rw [hv]
        · rw [Nat.sub_self, readAt_cons, if_pos rfl, readHead, if_pos hsize]
      · rw [if_neg hqk] at hq
        obtain ⟨h1, h2, h3, w, hw1, hw2⟩ := ihptr q p2 hq
        refine ⟨h1, h2, by omega, w, ?_, ?_⟩
        · rw [kdGet, if_neg hqk]
          exact hw1
        · have hps : 0 < p.size := by
            rw [← hsize]
            exact cmdSize_pos _
          have hne : ¬ (p2.pos - pos0 = 0) := by omega
          have hle : chunkSize (Chunk.ok (Command.Set k v)) ≤ p2.pos - pos0 := by
            simp only [chunkSize, hsize]
            omega
          rw [readAt_cons, if_neg hne, if_pos hle]
          have harith : p2.pos - pos0 - chunkSize (Chunk.ok (Command.Set k v)) =
              p2.pos - (pos0 + p.size) := by
            simp only [chunkSize, hsize]
            omega
          rw [harith]
          exact hw2
    · intro m q
      rw [replayChunks, ihreplay, kdGet]
      by_cases hqk : k = q
      · subst hqk
        rw [if_pos rfl, hkmem]
        show upd m k (some v) k = valAt files p
        rw [upd_self]
        unfold valAt
        rw [hv]
      · rw [if_neg hqk]
        cases hq : kdGet rest q with
        | none =>
          rw [upd_ne _ _ _ _ (fun hh => hqk hh.symm)]
        | some p2 => rfl

theorem mem_insertFile {x f : LogFile} {l : List LogFile} :
    x ∈ insertFile f l ↔ x = f ∨ x ∈ l := by
  induction l with
  | nil => simp [insertFile]
  | cons g gs ih =>
    rw [insertFile]
    by_cases hc : charsLt (fileNameChars g) (fileNameChars f) = true
    · rw [if_pos hc]
      simp only [List.mem_cons, ih]
      tauto
    · rw [if_neg hc]
      exact List.mem_cons

theorem mem_sortByName {x : LogFile} {l : List LogFile} :
    x ∈ sortByName l ↔ x ∈ l := by
  induction l with
  | nil => simp [sortByName]
  | cons f fs ih =>
    rw [sortByName, mem_insertFile, List.mem_cons, ih]

theorem compactLogs_eq (s : EngineState)
    (hok : (compactLoop s.files (s.logCounter + 1) s.keyDir 0).1 = Except.ok ()) :
    compactLogs s = (Except.ok (),
      { files := ((s.files ++ [(⟨LOG_WRITE, s.logCounter, []⟩ : LogFile)]) ++
            [(⟨LOG_COMP, s.logCounter + 1,
              (compactLoop s.files (s.logCounter + 1) s.keyDir 0).2.2⟩ : LogFile)]).filter
            (fun f => !((sortByName s.files).any fun g => g.id == f.id && g.state == f.state)),
        writerLog := s.logCounter, writerPos := 0,
        keyDir := (compactLoop s.files (s.logCounter + 1) s.keyDir 0).2.1,
        logCounter := s.logCounter + 2, uncompacted := s.uncompacted }) := by
  have hres : compactLoop s.files (s.logCounter + 1) s.keyDir 0 =
      (Except.ok (), (compactLoop s.files (s.logCounter + 1) s.keyDir 0).2) := by
    rw [← hok]
  unfold compactLogs
  rw [hres]

theorem beq_self_true (n : Nat) : (n == n) = true := by simp

/-- `compact_logs` on a reachable state: succeeds, preserves the invariant
and the observable map, and the surviving directory is exactly the fresh
write segment and the fresh compacted segment (every victim is gone). -/
theorem compactLogs_spec (s : EngineState) (h : Inv s) :
    (compactLogs s).1 = Except.ok () ∧
    Inv (compactLogs s).2 ∧
    (∀ q, kdView (compactLogs s).2.files (compactLogs s).2.keyDir q =
      kdView s.files s.keyDir q) ∧
    (compactLogs s).2.files = [⟨LOG_WRITE, s.logCounter, []⟩,
      ⟨LOG_COMP, s.logCounter + 1,
        (compactLoop s.files (s.logCounter + 1) s.keyDir 0).2.2⟩] ∧
    (compactLogs s).2.uncompacted = s.uncompacted := by
  obtain ⟨ihok, ihkeys, ihch, ihptr, ihreplay⟩ :=
    compactLoop_spec s.files (s.logCounter + 1) s.keyDir 0 h.kdOk h.nodupKeys
  have heq := compactLogs_eq s ihok
  -- the surviving files
  have hkeepold : ∀ f ∈ s.files,
      (!((sortByName s.files).any fun g => g.id == f.id && g.state == f.state)) = false := by
    intro f hf
    have hany : ((sortByName s.files).any fun g => g.id == f.id && g.state == f.state) = true := by
      rw [List.any_eq_true]
      exact ⟨f, mem_sortByName.mpr hf, by simp⟩
    rw [hany]
    rfl
  have hkeepnew : ∀ nf : LogFile, s.logCounter ≤ nf.id →
      (!((sortByName s.files).any fun g => g.id == nf.id && g.state == nf.state)) = true := by
    intro nf hnf
    cases hany : ((sortByName s.files).any fun g => g.id == nf.id && g.state == nf.state) with
    | false => rfl
    | true =>
      obtain ⟨g, hg, hgp⟩ := List.any_eq_true.mp hany
      simp only [Bool.and_eq_true, beq_iff_eq] at hgp
      have hgid : g.id = nf.id := hgp.1
      have hlt : g.id < s.logCounter := h.idsLt g (mem_sortByName.mp hg)
      omega
  have hfiles :
      (compactLogs s).2.files = [⟨LOG_WRITE, s.logCounter, []⟩,
        ⟨LOG_COMP, s.logCounter + 1,
          (compactLoop s.files (s.logCounter + 1) s.keyDir 0).2.2⟩] := by
    rw [heq]
    show List.filter _ _ = _
    rw [List.filter_append, List.filter_append]
    have h1 : s.files.filter
        (fun f => !((sortByName s.files).any fun g => g.id == f.id && g.state == f.state)) = [] := by
      rw [List.filter_eq_nil_iff]
      intro f hf
      rw [hkeepold f hf]
      simp
    have h2 : [(⟨LOG_WRITE, s.logCounter, []⟩ : LogFile)].filter
        (fun f => !((sortByName s.files).any fun g => g.id == f.id && g.state == f.state)) =
        [⟨LOG_WRITE, s.logCounter, []⟩] := by
      rw [List.filter_cons_of_pos]
      · rfl
      · exact hkeepnew _ (Nat.le_refl _)
    have h3 : [(⟨LOG_COMP, s.logCounter + 1,
          (compactLoop s.files (s.logCounter + 1) s.keyDir 0).2.2⟩ : LogFile)].filter
        (fun f => !((sortByName s.files).any fun g => g.id == f.id && g.state == f.state)) =
        [⟨LOG_COMP, s.logCounter + 1,
          (compactLoop s.files (s.logCounter + 1) s.keyDir 0).2.2⟩] := by
      rw [List.filter_cons_of_pos]
      · rfl
      · exact hkeepnew _ (Nat.le_succ _)
    rw [h1, h2, h3]
    rfl
  -- dereferencing the rewritten pointers in the new directory
  have hreadnew : ∀ k p2,
      kdGet (compactLogs s).2.keyDir k = some p2 →
      ∃ v, readLogF (compactLogs s).2.files p2 = some (Command.Set k v) ∧
        kdView s.files s.keyDir k = some v := by
    intro k p2 hk
    rw [heq] at hk
    obtain ⟨h1, h2, _h3, v, hv1, hv2⟩ := ihptr k p2 hk
    refine ⟨v, ?_, hv1⟩
    rw [hfiles]
    unfold readLogF
    rw [findLog_cons, if_neg ?hn1, findLog_cons, if_pos ?hn2]
    case hn1 =>
      intro hc
      have hcid : s.logCounter = p2.log := hc.1
      rw [h1] at hcid
      omega
    case hn2 =>
      exact ⟨h1.symm, h2.symm⟩
    rw [Nat.sub_zero] at hv2
    exact hv2
  have hviewnew : ∀ q, kdView (compactLogs s).2.files (compactLogs s).2.keyDir q =
      kdView s.files s.keyDir q := by
    intro q
    unfold kdView
    cases hq : kdGet (compactLogs s).2.keyDir q with
    | none =>
      have hknew : kdGet (compactLoop s.files (s.logCounter + 1) s.keyDir 0).2.1 q = none := by
        rw [heq] at hq
        exact hq
      have hnotmem : q ∉ kdKeys s.keyDir := by
        intro hmem
        rw [← ihkeys] at hmem
        have hsome := kdGet_isSome_of_mem hmem
        rw [hknew] at hsome
        simp at hsome
      rw [kdGet_eq_none_of_not_mem hnotmem]
      rfl
    | some p2 =>
      obtain ⟨v, hr, hview⟩ := hreadnew q p2 hq
      show (valAt (compactLogs s).2.files p2 : Option String) = kdView s.files s.keyDir q
      rw [hview]
      unfold valAt
      rw [hr]
  have hwl : (compactLogs s).2.writerLog = s.logCounter := by rw [heq]
  have hcnt : (compactLogs s).2.logCounter = s.logCounter + 2 := by rw [heq]
  have hkd : (compactLogs s).2.keyDir =
      (compactLoop s.files (s.logCounter + 1) s.keyDir 0).2.1 := by rw [heq]
  have hpos : (compactLogs s).2.writerPos = 0 := by rw [heq]
  refine ⟨by rw [heq], ⟨?_, ?_, ?_, ?_, ?_, ?_⟩, hviewnew, hfiles, by rw [heq]⟩
  · -- shape
    refine Or.inr ⟨[], s.logCounter + 1,
      (compactLoop s.files (s.logCounter + 1) s.keyDir 0).2.2, ?_, ?_, Or.inr ?_⟩
    · rw [hwl]; omega
    · rw [hpos]; rfl
    · rw [hfiles, hwl]
  · -- segment ids below the counter
    intro f hf
    rw [hfiles] at hf
    rw [hcnt]
    rcases List.mem_cons.mp hf with rfl | hf
    · show s.logCounter < s.logCounter + 2
      omega
    · rcases List.mem_cons.mp hf with rfl | hf
      · show s.logCounter + 1 < s.logCounter + 2
        omega
      · simp at hf
  · -- all chunks well-formed
    intro f hf ch hch
    rw [hfiles] at hf
    rcases List.mem_cons.mp hf with rfl | hf
    · simp at hch
    · rcases List.mem_cons.mp hf with rfl | hf
      · exact ihch ch hch
      · simp at hf
  · -- keydir keys distinct
    rw [hkd, ihkeys]
    exact h.nodupKeys
  · -- pointers dereference to Set records
    intro k p hk
    obtain ⟨v, hr, _⟩ := hreadnew k p hk
    exact ⟨v, hr⟩
  · -- disk replay agrees with the keydir view
    intro q
    rw [hviewnew q, hfiles]
    unfold diskMap
    rw [sortByName_pair_wc]
    simp only [replayFiles, replayChunks]
    rw [ihreplay (fun _ => none) q]
    unfold kdView
    cases kdGet s.keyDir q with
    | none => rfl
    | some p => rfl

/-! ## The engine operations preserve the invariant and refine the map -/

theorem inv_uncompacted (s : EngineState) (x : Nat) (h : Inv s) :
    Inv { s with uncompacted := x } :=
  ⟨h.shape, h.idsLt, h.chunksOk, h.nodupKeys, h.kdOk, h.disk⟩

theorem updateUncompacted_spec (s : EngineState) (old : Option LogPointer) (h : Inv s) :
    (updateUncompacted s old).1 = Except.ok () ∧
    Inv (updateUncompacted s old).2 ∧
    (∀ q, kdView (updateUncompacted s old).2.files (updateUncompacted s old).2.keyDir q =
      kdView s.files s.keyDir q) := by
  match old with
  | none => exact ⟨rfl, h, fun q => rfl⟩
  | some p =>
    show (if COMPACT_THRESHOLD ≤ s.uncompacted + p.size then _ else _ :
        Except KvsError Unit × EngineState).1 = _ ∧ _
    by_cases hth : COMPACT_THRESHOLD ≤ s.uncompacted + p.size
    · obtain ⟨hok, hinv, hview, _, _⟩ :=
        compactLogs_spec { s with uncompacted := s.uncompacted + p.size }
          (inv_uncompacted s _ h)
      have hres : compactLogs { s with uncompacted := s.uncompacted + p.size } =
          (Except.ok (), (compactLogs { s with uncompacted := s.uncompacted + p.size }).2) := by
        rw [← hok]
      rw [updateUncompacted, if_pos hth, hres]
      exact ⟨rfl, inv_uncompacted _ 0 hinv, fun q => hview q⟩
    · rw [updateUncompacted, if_neg hth]
      exact ⟨rfl, inv_uncompacted s _ h, fun q => rfl⟩

theorem setRaw_spec (s : EngineState) (k v : String) (h : Inv s) :
    Inv { s with files := appendToFile s.files s.writerLog (Command.Set k v),
                 writerPos := s.writerPos + cmdSize (Command.Set k v),
                 keyDir := kdInsert s.keyDir k
                   (mkWritePtr s.writerPos (cmdSize (Command.Set k v)) s.writerLog) } ∧
    ∀ q, kdView (appendToFile s.files s.writerLog (Command.Set k v))
        (kdInsert s.keyDir k (mkWritePtr s.writerPos (cmdSize (Command.Set k v)) s.writerLog)) q =
      upd (kdView s.files s.keyDir) k (some v) q := by
  obtain ⟨hsh2, hch2, hids2, hread2, hdisk2⟩ :=
    append_active_spec s (Command.Set k v) h.shape h.chunksOk rfl
  have hview2 : ∀ q, kdView (appendToFile s.files s.writerLog (Command.Set k v))
      (kdInsert s.keyDir k (mkWritePtr s.writerPos (cmdSize (Command.Set k v)) s.writerLog)) q =
      upd (kdView s.files s.keyDir) k (some v) q := by
    intro q
    by_cases hq : q = k
    · subst hq
      unfold kdView
      rw [kdGet_insert_self, upd_self]
      show (valAt (appendToFile s.files s.writerLog (Command.Set q v)) _ : Option String) = _
      unfold valAt mkWritePtr
      rw [hread2]
    · unfold kdView
      rw [kdGet_insert_ne _ _ _ _ hq, upd_ne _ _ _ _ hq]
      exact kdView_appendToFile h.kdOk _ _ q
  refine ⟨⟨hsh2, ?_, hch2, ?_, ?_, ?_⟩, hview2⟩
  · intro f hf
    obtain ⟨g, hg, hid, _⟩ := hids2 f hf
    rw [hid]
    exact h.idsLt g hg
  · exact kdKeys_insert_nodup _ _ _ h.nodupKeys
  · intro q p hq
    by_cases hqk : q = k
    · subst hqk
      rw [kdGet_insert_self] at hq
      cases hq
      exact ⟨v, hread2⟩
    · rw [kdGet_insert_ne _ _ _ _ hqk] at hq
      obtain ⟨w, hw⟩ := h.kdOk q p hq
      exact ⟨w, readLogF_appendToFile_of_some hw _ _⟩
  · intro q
    rw [hdisk2 q]
    show upd (diskMap s.files) k (some v) q = _
    rw [hview2 q]
    by_cases hq : q = k
    · subst hq
      rw [upd_self, upd_self]
    · rw [upd_ne _ _ _ _ hq, upd_ne _ _ _ _ hq]
      exact h.disk q

theorem setOp_spec (s : EngineState) (k v : String) (h : Inv s) :
    (setOp s k v).1 = Except.ok () ∧ Inv (setOp s k v).2 ∧
    ∀ q, kdView (setOp s k v).2.files (setOp s k v).2.keyDir q =
      upd (kdView s.files s.keyDir) k (some v) q := by
  obtain ⟨h2, hview2⟩ := setRaw_spec s k v h
  obtain ⟨hok, hinv, hv⟩ := updateUncompacted_spec _ (kdGet s.keyDir k) h2
  exact ⟨hok, hinv, fun q => (hv q).trans (hview2 q)⟩

theorem removeRaw_spec (s : EngineState) (k : String) (h : Inv s) :
    Inv { s with files := appendToFile s.files s.writerLog (Command.Rm k),
                 writerPos := s.writerPos + cmdSize (Command.Rm k),
                 keyDir := kdRemove s.keyDir k } ∧
    ∀ q, kdView (appendToFile s.files s.writerLog (Command.Rm k)) (kdRemove s.keyDir k) q =
      upd (kdView s.files s.keyDir) k none q := by
  obtain ⟨hsh2, hch2, hids2, _hread2, hdisk2⟩ :=
    append_active_spec s (Command.Rm k) h.shape h.chunksOk rfl
  have hview2 : ∀ q, kdView (appendToFile s.files s.writerLog (Command.Rm k))
      (kdRemove s.keyDir k) q = upd (kdView s.files s.keyDir) k none q := by
    intro q
    by_cases hq : q = k
    · subst hq
      unfold kdView
      rw [kdGet_remove_self _ _ h.nodupKeys, upd_self]
      rfl
    · unfold kdView
      rw [kdGet_remove_ne _ _ _ hq, upd_ne _ _ _ _ hq]
      exact kdView_appendToFile h.kdOk _ _ q
  refine ⟨⟨hsh2, ?_, hch2, ?_, ?_, ?_⟩, hview2⟩
  · intro f hf
    obtain ⟨g, hg, hid, _⟩ := hids2 f hf
    rw [hid]
    exact h.idsLt g hg
  · exact kdKeys_remove_nodup _ _ h.nodupKeys
  · intro q p hq
    by_cases hqk : q = k
    · subst hqk
      rw [kdGet_remove_self _ _ h.nodupKeys] at hq
      exact absurd hq (by simp)
    · rw [kdGet_remove_ne _ _ _ hqk] at hq
      obtain ⟨w, hw⟩ := h.kdOk q p hq
      exact ⟨w, readLogF_appendToFile_of_some hw _ _⟩
  · intro q
    rw [hdisk2 q]
    show upd (diskMap s.files) k none q = _
    rw [hview2 q]
    by_cases hq : q = k
    · subst hq
      rw [upd_self, upd_self]
    · rw [upd_ne _ _ _ _ hq, upd_ne _ _ _ _ hq]
      exact h.disk q

theorem removeOp_spec (s : EngineState) (k : String) (h : Inv s) :
    Inv (removeOp s k).2 ∧
    ((kdGet s.keyDir k = none) → removeOp s k = (Except.error KvsError.KeyNotFound, s)) ∧
    ((kdGet s.keyDir k).isSome = true → (removeOp s k).1 = Except.ok ()) ∧
    ∀ q, kdView (removeOp s k).2.files (removeOp s k).2.keyDir q =
      upd (kdView s.files s.keyDir) k none q := by
  by_cases hk : (kdGet s.keyDir k).isSome = true
  · obtain ⟨h2, hview2⟩ := removeRaw_spec s k h
    obtain ⟨hok, hinv, hv⟩ := updateUncompacted_spec _ (kdGet s.keyDir k) h2
    have hun : removeOp s k = updateUncompacted
        { s with files := appendToFile s.files s.writerLog (Command.Rm k),
                 writerPos := s.writerPos + cmdSize (Command.Rm k),
                 keyDir := kdRemove s.keyDir k }
        (kdGet s.keyDir k) := by
      unfold removeOp
      rw [if_pos hk]
      rfl
    rw [hun]
    refine ⟨hinv, ?_, fun _ => hok, fun q => (hv q).trans (hview2 q)⟩
    intro hnone
    rw [hnone] at hk
    simp at hk
  · have hnone : kdGet s.keyDir k = none := by
      cases hg : kdGet s.keyDir k with
      | none => rfl
      | some p => rw [hg] at hk; simp at hk
    have hun : removeOp s k = (Except.error KvsError.KeyNotFound, s) := by
      unfold removeOp
      rw [if_neg hk]
    rw [hun]
    refine ⟨h, fun _ => rfl, fun hc => absurd hc hk, fun q => ?_⟩
    by_cases hq : q = k
    · subst hq
      rw [upd_self]
      unfold kdView
      rw [hnone]
      rfl
    · rw [upd_ne _ _ _ _ hq]

theorem applyOp_spec (s : EngineState) (op : Op) (h : Inv s) :
    Inv (applyOp s op) ∧
    ∀ q, kdView (applyOp s op).files (applyOp s op).keyDir q =
      specStep (kdView s.files s.keyDir) op q := by
  cases op with
  | set k v =>
    obtain ⟨_, hinv, hview⟩ := setOp_spec s k v h
    exact ⟨hinv, hview⟩
  | remove k =>
    obtain ⟨hinv, _, _, hview⟩ := removeOp_spec s k h
    exact ⟨hinv, hview⟩

theorem specStep_congr (m1 m2 : String → Option String) (hm : ∀ q, m1 q = m2 q)
    (op : Op) (q : String) : specStep m1 op q = specStep m2 op q := by
  cases op with
  | set k v =>
    show upd m1 k (some v) q = upd m2 k (some v) q
    by_cases hq : q = k
    · subst hq; rw [upd_self, upd_self]
    · rw [upd_ne _ _ _ _ hq, upd_ne _ _ _ _ hq]; exact hm q
  | remove k =>
    show upd m1 k none q = upd m2 k none q
    by_cases hq : q = k
    · subst hq; rw [upd_self, upd_self]
    · rw [upd_ne _ _ _ _ hq, upd_ne _ _ _ _ hq]; exact hm q

theorem foldl_spec (ops : List Op) :
    ∀ (s : EngineState) (m : String → Option String), Inv s →
    (∀ q, kdView s.files s.keyDir q = m q) →
    Inv (ops.foldl applyOp s) ∧
    ∀ q, kdView (ops.foldl applyOp s).files (ops.foldl applyOp s).keyDir q =
      (ops.foldl specStep m) q := by
  induction ops with
  | nil => exact fun s m h hm => ⟨h, hm⟩
  | cons op rest ih =>
    intro s m h hm
    obtain ⟨h1, hv1⟩ := applyOp_spec s op h
    have hm1 : ∀ q, kdView (applyOp s op).files (applyOp s op).keyDir q = specStep m op q :=
      fun q => (hv1 q).trans (specStep_congr _ _ hm op q)
    exact ih (applyOp s op) (specStep m op) h1 hm1

/-- The master simulation: every run from a freshly opened empty directory
keeps the invariant, and the keydir view of the reached state is exactly
the last-write map of the run. -/
theorem runOps_spec (ops : List Op) :
    Inv (runOps ops) ∧
    ∀ q, kdView (runOps ops).files (runOps ops).keyDir q = runVal ops q := by
  refine foldl_spec ops initState (fun _ => none) inv_initState ?_
  intro q
  rfl

theorem getOp_eq_view (s : EngineState) (h : KdOk s.files s.keyDir) (q : String) :
    getOp s q = Except.ok (kdView s.files s.keyDir q) := by
  unfold getOp kdView
  cases hq : kdGet s.keyDir q with
  | none => rfl
  | some p =>
    obtain ⟨v, hv⟩ := h q p hq
    show getFromPtr s.files p = Except.ok (valAt s.files p)
    unfold getFromPtr valAt
    rw [hv]

/-! ## Facts about the specification map -/

/-- The key an operation touches. -/
def opKey : Op → String
  | .set k _ => k
  | .remove k => k

theorem foldl_specStep_untouched (ops : List Op) (k : String) :
    ∀ (m : String → Option String), (∀ op ∈ ops, opKey op ≠ k) →
    ops.foldl specStep m k = m k := by
  induction ops with
  | nil => intro m _; rfl
  | cons op rest ih =>
    intro m hop
    rw [List.foldl_cons]
    rw [ih _ (fun o ho => hop o (List.mem_cons_of_mem _ ho))]
    have hne : k ≠ opKey op := fun hh => hop op (List.mem_cons_self _ _) hh.symm
    cases op with
    | set k2 v =>
      exact upd_ne _ _ _ _ hne
    | remove k2 =>
      exact upd_ne _ _ _ _ hne

theorem runVal_last_set (ops1 ops2 : List Op) (k v : String)
    (h : ∀ op ∈ ops2, opKey op ≠ k) :
    runVal (ops1 ++ Op.set k v :: ops2) k = some v := by
  unfold runVal
  rw [List.foldl_append, List.foldl_cons]
  rw [foldl_specStep_untouched ops2 k _ h]
  exact upd_self _ _ _

theorem runVal_last_remove (ops : List Op) (k : String) :
    runVal (ops ++ [Op.remove k]) k = none := by
  unfold runVal
  rw [List.foldl_append]
  exact upd_self _ _ _

/-! ## Correctness of `build_key_dir` and `open` -/

/-- A chunk the rebuild scan can pass without failing the whole open: any
complete `Set`/`Rm` record, or an undecodable region (which merely stops
the scan).  Only a decodable `Get` record fails the rebuild. -/
def chunkGood : Chunk → Bool
  | .ok (.Get _) => false
  | _ => true

theorem chunkGood_of_ok {ch : Chunk} (h : chunkOk ch = true) : chunkGood ch = true := by
  match ch with
  | .ok (.Set _ _) => rfl
  | .ok (.Rm _) => rfl
  | .ok (.Get _) => simp [chunkOk] at h
  | .bad _ => rfl

theorem upd_congr (m1 m2 : String → Option String) (h : ∀ q, m1 q = m2 q)
    (k : String) (x : Option String) (q : String) : upd m1 k x q = upd m2 k x q := by
  by_cases hq : q = k
  · subst hq
    rw [upd_self, upd_self]
  · rw [upd_ne _ _ _ _ hq, upd_ne _ _ _ _ hq]
    exact h q

theorem replayChunks_congr (l : List Chunk) :
    ∀ (m1 m2 : String → Option String), (∀ q, m1 q = m2 q) →
    ∀ q, replayChunks m1 l q = replayChunks m2 l q := by
  induction l with
  | nil => intro m1 m2 h q; exact h q
  | cons ch rest ih =>
    intro m1 m2 h q
    match ch with
    | .ok (.Set k v) =>
      rw [replayChunks, replayChunks]
      exact ih _ _ (upd_congr m1 m2 h k (some v)) q
    | .ok (.Rm k) =>
      rw [replayChunks, replayChunks]
      exact ih _ _ (upd_congr m1 m2 h k none) q
    | .ok (.Get k) =>
      rw [replayChunks, replayChunks]
      exact ih _ _ h q
    | .bad n => exact h q

/-- Scanning the remaining records of a segment whose processed prefix is
`pre`: the scan succeeds, every produced pointer dereferences (against the
whole directory) to the `Set` record it was created from, and the scanned
keydir denotes exactly the replay of the scanned records. -/
theorem scanChunks_spec (files : List LogFile) (log lstate : Nat) (fdata : List Chunk)
    (hfind : findLog files log lstate = some ⟨lstate, log, fdata⟩) :
    ∀ (rest pre : List Chunk) (kd : KeyDir) (unc : Nat),
    fdata = pre ++ rest →
    (∀ ch ∈ pre, ∃ c, ch = Chunk.ok c) →
    (∀ ch ∈ rest, chunkGood ch = true) →
    (∀ k p, kdGet kd k = some p → ∃ v, readLogF files p = some (Command.Set k v)) →
    (kdKeys kd).Nodup →
    ∃ kd2 unc2, scanChunks log lstate rest (chunksSize pre) kd unc = Except.ok (kd2, unc2) ∧
      (∀ k p, kdGet kd2 k = some p → ∃ v, readLogF files p = some (Command.Set k v)) ∧
      (kdKeys kd2).Nodup ∧
      (∀ q, kdView files kd2 q = replayChunks (kdView files kd) rest q) := by
  intro rest
  induction rest with
  | nil =>
    intro pre kd unc _ _ _ hval hnd
    exact ⟨kd, unc, rfl, hval, hnd, fun q => rfl⟩
  | cons ch rest2 ih =>
    intro pre kd unc hdata hpre hgood hval hnd
    have hgood2 : ∀ x ∈ rest2, chunkGood x = true :=
      fun x hx => hgood x (List.mem_cons_of_mem _ hx)
    have hpos : ∀ x ∈ pre, 0 < chunkSize x := by
      intro x hx
      obtain ⟨c, hc⟩ := hpre x hx
      subst hc
      exact cmdSize_pos c
    match ch with
    | .bad n =>
      exact ⟨kd, unc, rfl, hval, hnd, fun q => rfl⟩
    | .ok (.Get k) =>
      have hbad := hgood _ (List.mem_cons_self _ _)
      simp [chunkGood] at hbad
    | .ok (.Set k v) =>
      have hptr : readLogF files
          (⟨chunksSize pre, cmdSize (Command.Set k v), log, lstate⟩ : LogPointer) =
          some (Command.Set k v) := by
        unfold readLogF
        rw [hfind, hdata]
        exact readAt_at_boundary _ _ hpos
      have hval2 : ∀ q p, kdGet (kdInsert kd k
          (⟨chunksSize pre, cmdSize (Command.Set k v), log, lstate⟩ : LogPointer)) q = some p →
          ∃ w, readLogF files p = some (Command.Set q w) := by
        intro q p hq
        by_cases hqk : q = k
        · subst hqk
          rw [kdGet_insert_self] at hq
          cases hq
          exact ⟨v, hptr⟩
        · rw [kdGet_insert_ne _ _ _ _ hqk] at hq
          exact hval q p hq
      obtain ⟨kd2, unc2, hscan, hv2, hnd2, hview2⟩ :=
        ih (pre ++ [Chunk.ok (Command.Set k v)])
          (kdInsert kd k ⟨chunksSize pre, cmdSize (Command.Set k v), log, lstate⟩)
          (match kdGet kd k with
           | some old => unc + old.size
           | none => unc)
          (by rw [hdata, List.append_assoc]; rfl)
          (by
            intro x hx
            rcases List.mem_append.mp hx with hx | hx
            · exact hpre x hx
            · rw [List.mem_singleton] at hx
              exact ⟨_, hx⟩)
          hgood2 hval2 (kdKeys_insert_nodup _ _ _ hnd)
      rw [chunksSize_snoc_ok] at hscan
      refine ⟨kd2, unc2, hscan, hv2, hnd2, ?_⟩
      intro q
      rw [hview2 q, replayChunks]
      refine replayChunks_congr rest2 _ _ ?_ q
      intro q2
      by_cases hq2 : q2 = k
      · subst hq2
        unfold kdView
        rw [kdGet_insert_self, upd_self]
        show (valAt files _ : Option String) = some v
        unfold valAt
        rw [hptr]
      · unfold kdView
        rw [kdGet_insert_ne _ _ _ _ hq2, upd_ne _ _ _ _ hq2]
    | .ok (.Rm k) =>
      cases hk : kdGet kd k with
      | some old =>
        have hval2 : ∀ q p, kdGet (kdRemove kd k) q = some p →
            ∃ w, readLogF files p = some (Command.Set q w) := by
          intro q p hq
          by_cases hqk : q = k
          · subst hqk
            rw [kdGet_remove_self _ _ hnd] at hq
            exact absurd hq (by simp)
          · rw [kdGet_remove_ne _ _ _ hqk] at hq
            exact hval q p hq
        obtain ⟨kd2, unc2, hscan, hv2, hnd2, hview2⟩ :=
          ih (pre ++ [Chunk.ok (Command.Rm k)]) (kdRemove kd k) (unc + old.size)
            (by rw [hdata, List.append_assoc]; rfl)
            (by
              intro x hx
              rcases List.mem_append.mp hx with hx | hx
              · exact hpre x hx
              · rw [List.mem_singleton] at hx
                exact ⟨_, hx⟩)
            hgood2 hval2 (kdKeys_remove_nodup _ _ hnd)
        rw [chunksSize_snoc_ok] at hscan
        have heq : scanChunks log lstate (Chunk.ok (Command.Rm k) :: rest2)
            (chunksSize pre) kd unc =
            scanChunks log lstate rest2 (chunksSize pre + cmdSize (Command.Rm k))
              (kdRemove kd k) (unc + old.size) := by
          rw [scanChunks, hk]
        refine ⟨kd2, unc2, heq.trans hscan, hv2, hnd2, ?_⟩
        intro q
        rw [hview2 q, replayChunks]
        refine replayChunks_congr rest2 _ _ ?_ q
        intro q2
        by_cases hq2 : q2 = k
        · subst hq2
          unfold kdView
          rw [kdGet_remove_self _ _ hnd, upd_self]
          rfl
        · unfold kdView
          rw [kdGet_remove_ne _ _ _ hq2, upd_ne _ _ _ _ hq2]
      | none =>
        obtain ⟨kd2, unc2, hscan, hv2, hnd2, hview2⟩ :=
          ih (pre ++ [Chunk.ok (Command.Rm k)]) kd unc
            (by rw [hdata, List.append_assoc]; rfl)
            (by
              intro x hx
              rcases List.mem_append.mp hx with hx | hx
              · exact hpre x hx
              · rw [List.mem_singleton] at hx
                exact ⟨_, hx⟩)
            hgood2 hval hnd
        rw [chunksSize_snoc_ok] at hscan
        have heq : scanChunks log lstate (Chunk.ok (Command.Rm k) :: rest2)
            (chunksSize pre) kd unc =
            scanChunks log lstate rest2 (chunksSize pre + cmdSize (Command.Rm k)) kd unc := by
          rw [scanChunks, hk]
        refine ⟨kd2, unc2, heq.trans hscan, hv2, hnd2, ?_⟩
        intro q
        rw [hview2 q, replayChunks]
        refine replayChunks_congr rest2 _ _ ?_ q
        intro q2
        by_cases hq2 : q2 = k
        · subst hq2
          unfold kdView
          rw [hk, upd_self]
          rfl
        · rw [upd_ne _ _ _ _ hq2]

theorem replayFiles_congr (fs : List LogFile) :
    ∀ (m1 m2 : String → Option String), (∀ q, m1 q = m2 q) →
    ∀ q, replayFiles m1 fs q = replayFiles m2 fs q := by
  induction fs with
  | nil => intro m1 m2 h q; exact h q
  | cons f rest ih =>
    intro m1 m2 h q
    rw [replayFiles, replayFiles]
    exact ih _ _ (replayChunks_congr f.data m1 m2 h) q

/-- Scanning a list of segments from an accumulated keydir: every produced
pointer is valid against the directory `files`, and the result denotes the
replay of the scanned segments. -/
theorem buildKeyDirFrom_spec (files : List LogFile) :
    ∀ (fs : List LogFile) (kd : KeyDir) (unc cnt : Nat),
    (∀ f ∈ fs, findLog files f.id f.state = some f) →
    (∀ f ∈ fs, ∀ ch ∈ f.data, chunkGood ch = true) →
    (∀ k p, kdGet kd k = some p → ∃ v, readLogF files p = some (Command.Set k v)) →
    (kdKeys kd).Nodup →
    ∃ kd2 unc2 cnt2, buildKeyDirFrom (kd, unc, cnt) fs = Except.ok (kd2, unc2, cnt2) ∧
      (∀ k p, kdGet kd2 k = some p → ∃ v, readLogF files p = some (Command.Set k v)) ∧
      (kdKeys kd2).Nodup ∧
      (∀ q, kdView files kd2 q = replayFiles (kdView files kd) fs q) := by
  intro fs
  induction fs with
  | nil =>
    intro kd unc cnt _ _ hval hnd
    exact ⟨kd, unc, cnt, rfl, hval, hnd, fun q => rfl⟩
  | cons f rest ih =>
    intro kd unc cnt hfind hgood hval hnd
    have hfindf : findLog files f.id f.state = some ⟨f.state, f.id, f.data⟩ :=
      hfind f (List.mem_cons_self _ _)
    obtain ⟨kdA, uncA, hscan, hvalA, hndA, hviewA⟩ :=
      scanChunks_spec files f.id f.state f.data hfindf f.data [] kd unc rfl
        (by intro x hx; simp at hx)
        (hgood f (List.mem_cons_self _ _)) hval hnd
    obtain ⟨kd2, unc2, cnt2, hb, hv2, hnd2, hview2⟩ :=
      ih kdA uncA (max cnt f.id)
        (fun g hg => hfind g (List.mem_cons_of_mem _ hg))
        (fun g hg => hgood g (List.mem_cons_of_mem _ hg)) hvalA hndA
    have heq : buildKeyDirFrom (kd, unc, cnt) (f :: rest) =
        buildKeyDirFrom (kdA, uncA, max cnt f.id) rest := by
      rw [buildKeyDirFrom]
      rw [show scanChunks f.id f.state f.data 0 kd unc = Except.ok (kdA, uncA) from hscan]
    refine ⟨kd2, unc2, cnt2, heq.trans hb, hv2, hnd2, ?_⟩
    intro q
    rw [hview2 q, replayFiles]
    exact replayFiles_congr rest _ _ hviewA q

/-- `open` on a directory with at least one write segment whose name is the
last sorted filename: it succeeds and the observable map of the reopened
store is the replay of the directory. -/
theorem openGet_eq (d : List LogFile) (k : String)
    (hfind : ∀ f ∈ sortByName d, findLog d f.id f.state = some f)
    (hgood : ∀ f ∈ sortByName d, ∀ ch ∈ f.data, chunkGood ch = true)
    (hof : ∀ cnt, openFiles d (openLog (sortByName d) cnt) = d) :
    openGet d k = Except.ok (diskMap d k) := by
  obtain ⟨kd2, unc2, cnt2, hb, hv2, hnd2, hview2⟩ :=
    buildKeyDirFrom_spec d (sortByName d) [] 0 0 hfind hgood
      (by intro q p hp; simp [kdGet] at hp) (by simp [kdKeys])
  have hb2 : buildKeyDir (sortByName d) = Except.ok (kd2, unc2, cnt2) := hb
  unfold openGet openDir
  rw [hb2]
  have hofc := hof cnt2
  show getOp { files := openFiles d (openLog (sortByName d) cnt2),
               writerLog := openLog (sortByName d) cnt2,
               writerPos := openPos (openFiles d (openLog (sortByName d) cnt2))
                              (openLog (sortByName d) cnt2),
               keyDir := kd2, logCounter := cnt2 + 1, uncompacted := unc2 } k = _
  rw [getOp_eq_view _ (by rw [hofc]; exact hv2) k]
  show Except.ok (kdView (openFiles d (openLog (sortByName d) cnt2)) kd2 k) = _
  rw [hofc, hview2 k]
  unfold diskMap
  exact congrArg Except.ok (replayFiles_congr (sortByName d) _ _ (fun q => rfl) k)

/-- Persistence after a clean shutdown: reopening the directory a run
produced and reading any key yields exactly the last committed `set`
(or nothing after a `remove`). -/
theorem openGet_runOps (ops : List Op) (k : String) :
    openGet (runOps ops).files k = Except.ok (runVal ops k) := by
  obtain ⟨hinv, hview⟩ := runOps_spec ops
  have hgood : ∀ f ∈ sortByName (runOps ops).files, ∀ ch ∈ f.data, chunkGood ch = true := by
    intro f hf ch hch
    exact chunkGood_of_ok (hinv.chunksOk f (mem_sortByName.mp hf) ch hch)
  have hmain : openGet (runOps ops).files k =
      Except.ok (diskMap (runOps ops).files k) := by
    rcases hinv.shape with ⟨wd, hfiles, _⟩ | ⟨wd, cid, cd, hcid, _, hfiles | hfiles⟩
    · refine openGet_eq _ _ ?_ hgood ?_
      · intro f hf
        rw [hfiles, sortByName_single, List.mem_singleton] at hf
        subst hf
        rw [hfiles, findLog_cons, if_pos ⟨rfl, rfl⟩]
      · intro cnt
        have hlog : openLog (sortByName (runOps ops).files) cnt = (runOps ops).writerLog := by
          rw [hfiles, sortByName_single]
          rfl
        rw [hlog]
        unfold openFiles
        rw [if_pos (by rw [hfiles]; simp)]
    · -- files = [compacted, write]
      refine openGet_eq _ _ ?_ hgood ?_
      · intro f hf
        rw [hfiles, sortByName_pair_cw] at hf
        rw [hfiles]
        rcases List.mem_cons.mp hf with rfl | hf
        · rw [findLog_cons, if_pos ⟨rfl, rfl⟩]
        · rw [List.mem_singleton] at hf
          subst hf
          rw [findLog_cons, if_neg (fun hc => hcid hc.1), findLog_cons, if_pos ⟨rfl, rfl⟩]
      · intro cnt
        have hlog : openLog (sortByName (runOps ops).files) cnt = (runOps ops).writerLog := by
          rw [hfiles, sortByName_pair_cw]
          unfold openLog
          rw [List.getLast?_cons_cons]
          rfl
        rw [hlog]
        unfold openFiles
        rw [if_pos (by rw [hfiles]; simp)]
    · -- files = [write, compacted]
      refine openGet_eq _ _ ?_ hgood ?_
      · intro f hf
        rw [hfiles, sortByName_pair_wc] at hf
        rw [hfiles]
        rcases List.mem_cons.mp hf with rfl | hf
        · rw [findLog_cons, if_neg (fun hc => hcid (hc.1.symm)), findLog_cons,
            if_pos ⟨rfl, rfl⟩]
        · rw [List.mem_singleton] at hf
          subst hf
          rw [findLog_cons, if_pos ⟨rfl, rfl⟩]
      · intro cnt
        have hlog : openLog (sortByName (runOps ops).files) cnt = (runOps ops).writerLog := by
          rw [hfiles, sortByName_pair_wc]
          unfold openLog
          rw [List.getLast?_cons_cons]
          rfl
        rw [hlog]
        unfold openFiles
        rw [if_pos (by rw [hfiles]; simp)]
  rw [hmain, hinv.disk k, hview k]

/-! ## Torn tails -/

/-- The scan of one segment ignores everything after the first
undecodable region: `while let Ok(cmd) = deserialize_from(..)` exits at
the first failure. -/
theorem scanChunks_stop (log lstate : Nat) (l2 : List Chunk) (n : Nat) :
    ∀ (l1 : List Chunk) (pos : Nat) (kd : KeyDir) (unc : Nat),
    scanChunks log lstate (l1 ++ Chunk.bad n :: l2) pos kd unc =
      scanChunks log lstate l1 pos kd unc := by
  intro l1
  induction l1 with
  | nil => intro pos kd unc; rfl
  | cons ch rest ih =>
    intro pos kd unc
    match ch with
    | .bad m => rfl
    | .ok (.Get k) => rfl
    | .ok (.Set k v) =>
      rw [List.cons_append, scanChunks, scanChunks]
      exact ih _ _ _
    | .ok (.Rm k) =>
      rw [List.cons_append, scanChunks, scanChunks]
      cases hk : kdGet kd k with
      | some old => exact ih _ _ _
      | none => exact ih _ _ _

/-- Truncating the torn tail of a segment does not change what
`build_key_dir` computes. -/
theorem buildKeyDirFrom_torn (st id n : Nat) (good rest : List Chunk) :
    ∀ (fs1 : List LogFile) (acc : KeyDir × Nat × Nat),
    buildKeyDirFrom acc (fs1 ++ [⟨st, id, good ++ Chunk.bad n :: rest⟩]) =
      buildKeyDirFrom acc (fs1 ++ [⟨st, id, good⟩]) := by
  intro fs1
  induction fs1 with
  | nil =>
    intro acc
    rw [List.nil_append, List.nil_append, buildKeyDirFrom, buildKeyDirFrom]
    rw [show (⟨st, id, good ++ Chunk.bad n :: rest⟩ : LogFile).data =
      good ++ Chunk.bad n :: rest from rfl]
    rw [scanChunks_stop]
  | cons f fs ih =>
    intro acc
    rw [List.cons_append, List.cons_append, buildKeyDirFrom, buildKeyDirFrom]
    cases hs : scanChunks f.id f.state f.data 0 acc.1 acc.2.1 with
    | error e => rfl
    | ok pr => exact ih (pr.1, pr.2, max acc.2.2 f.id)

/-- A scan over records that are all scannable succeeds. -/
theorem scanChunks_ok (log lstate : Nat) :
    ∀ (l : List Chunk), (∀ ch ∈ l, chunkGood ch = true) →
    ∀ (pos : Nat) (kd : KeyDir) (unc : Nat),
    ∃ r, scanChunks log lstate l pos kd unc = Except.ok r := by
  intro l
  induction l with
  | nil => exact fun _ pos kd unc => ⟨(kd, unc), rfl⟩
  | cons ch rest ih =>
    intro h pos kd unc
    have h2 : ∀ x ∈ rest, chunkGood x = true := fun x hx => h x (List.mem_cons_of_mem _ hx)
    match ch with
    | .bad m => exact ⟨(kd, unc), rfl⟩
    | .ok (.Get k) =>
      have hbad := h _ (List.mem_cons_self _ _)
      simp [chunkGood] at hbad
    | .ok (.Set k v) => exact ih h2 _ _ _
    | .ok (.Rm k) =>
      cases hk : kdGet kd k with
      | some old =>
        obtain ⟨r, hr⟩ := ih h2 (pos + cmdSize (Command.Rm k)) (kdRemove kd k) (unc + old.size)
        refine ⟨r, ?_⟩
        rw [scanChunks, hk]
        exact hr
      | none =>
        obtain ⟨r, hr⟩ := ih h2 (pos + cmdSize (Command.Rm k)) kd unc
        refine ⟨r, ?_⟩
        rw [scanChunks, hk]
        exact hr

/-- Rebuilding from segments whose records are all scannable succeeds. -/
theorem buildKeyDirFrom_ok :
    ∀ (fs : List LogFile), (∀ f ∈ fs, ∀ ch ∈ f.data, chunkGood ch = true) →
    ∀ (acc : KeyDir × Nat × Nat), ∃ r, buildKeyDirFrom acc fs = Except.ok r := by
  intro fs
  induction fs with
  | nil => exact fun _ acc => ⟨acc, rfl⟩
  | cons f rest ih =>
    intro h acc
    obtain ⟨⟨kdA, uncA⟩, hs⟩ :=
      scanChunks_ok f.id f.state f.data (h f (List.mem_cons_self _ _)) 0 acc.1 acc.2.1
    obtain ⟨r, hr⟩ := ih (fun g hg => h g (List.mem_cons_of_mem _ hg)) (kdA, uncA, max acc.2.2 f.id)
    refine ⟨r, ?_⟩
    rw [buildKeyDirFrom, hs]
    exact hr

/-! ## The pointer cells of `LogPointer` (claim C7)

`LogPointer` keeps `pos`, `log` and `log_state` in three separate atomic
cells (`Arc<AtomicU64>`, `Arc<AtomicU64>`, `Arc<AtomicU8>`); `size` is a
plain immutable field.  `compact_logs` migrates an entry by three
separate relaxed stores (pos, then log, then log_state) with no
compare-and-set, and `read_log` performs three separate relaxed loads
(log, then log_state, then pos).  The model below runs those store and
load programs under an arbitrary interleaving. -/

structure PtrCells where
  pos : Nat
  log : Nat
  logState : Nat
deriving DecidableEq, Repr

inductive PtrStore where
  | storePos (v : Nat)
  | storeLog (v : Nat)
  | storeState (v : Nat)
deriving DecidableEq, Repr

/-- One atomic store to one cell. -/
def applyStore (c : PtrCells) : PtrStore → PtrCells
  | .storePos v => { c with pos := v }
  | .storeLog v => { c with log := v }
  | .storeState v => { c with logState := v }

def runStores (c : PtrCells) (l : List PtrStore) : PtrCells := l.foldl applyStore c

/-- The three stores `compact_logs` issues when migrating one keydir
entry, in program order. -/
def migrationStores (newPos newLog : Nat) : List PtrStore :=
  [PtrStore.storePos newPos, PtrStore.storeLog newLog, PtrStore.storeState LOG_COMP]

/-- The loads `read_log` performs on the cells, in program order. -/
inductive ReadAct where
  | loadLog
  | loadState
  | loadPos
deriving DecidableEq, Repr

/-- The reader's loads in `read_log` order. -/
def readerLoads : List ReadAct := [ReadAct.loadLog, ReadAct.loadState, ReadAct.loadPos]

/-- What the reader has observed so far. -/
structure ReadObs where
  log : Option Nat
  logState : Option Nat
  pos : Option Nat
deriving DecidableEq, Repr

/-- The writer steps of a schedule, in order. -/
def storesOf (sch : List (Sum PtrStore ReadAct)) : List PtrStore :=
  sch.filterMap fun x => match x with | Sum.inl s => some s | Sum.inr _ => none

/-- The reader steps of a schedule, in order. -/
def loadsOf (sch : List (Sum PtrStore ReadAct)) : List ReadAct :=
  sch.filterMap fun x => match x with | Sum.inr r => some r | Sum.inl _ => none

/-- A schedule is an interleaving of the two thread programs exactly when
its per-thread projections are those programs. -/
def validSchedule (sch : List (Sum PtrStore ReadAct)) (ss : List PtrStore)
    (rs : List ReadAct) : Prop :=
  storesOf sch = ss ∧ loadsOf sch = rs

/-- The interleaving that loads `log` and `log_state` before the
migration's stores and `pos` after them. -/
def tornSchedule : List (Sum PtrStore ReadAct) :=
  [Sum.inr ReadAct.loadLog, Sum.inr ReadAct.loadState,
   Sum.inl (PtrStore.storePos 100), Sum.inl (PtrStore.storeLog 7),
   Sum.inl (PtrStore.storeState LOG_COMP), Sum.inr ReadAct.loadPos]

/-- Execute one interleaving: stores mutate the cells, loads record what
the corresponding cell holds at that moment. -/
def execSched : PtrCells → ReadObs → List (Sum PtrStore ReadAct) → PtrCells × ReadObs
  | c, o, [] => (c, o)
  | c, o, Sum.inl s :: rest => execSched (applyStore c s) o rest
  | c, o, Sum.inr ReadAct.loadLog :: rest => execSched c { o with log := some c.log } rest
  | c, o, Sum.inr ReadAct.loadState :: rest =>
    execSched c { o with logState := some c.logState } rest
  | c, o, Sum.inr ReadAct.loadPos :: rest => execSched c { o with pos := some c.pos } rest

/-- The observation a reader makes of cells `c` when no store intervenes. -/
def quietObs (c : PtrCells) : ReadObs := ⟨some c.log, some c.logState, some c.pos⟩

/-! ## The request handler of the server (claim C8) -/

/-- `common.rs`: `enum Response { Ok(Option<String>), Err(String) }`. -/
inductive Response where
  | Ok (v : Option String)
  | Err (msg : String)
deriving DecidableEq, Repr

/-- The `Display` text of each error kind (`error.rs`); for the kinds
carrying a cause only the fixed leading text is modelled, which no claim
depends on. -/
def displayError : KvsError → String
  | KvsError.KeyNotFound => "Key Not Found"
  | KvsError.UnexpectedCommandType => "Unexpected command type"
  | KvsError.IoFailure => "Problem with IO"

/-- One iteration of `handle_stream`: deserialize one command, run it on
the engine and serialize exactly one `Response` determined by the engine
result. -/
def handleGet : Except KvsError (Option String) → Response
  | Except.ok (some v) => Response.Ok (some v)
  | Except.ok none => Response.Ok (some "Key not found")
  | Except.error e => Response.Err (displayError e)

def handleSet : Except KvsError Unit → Response
  | Except.ok _ => Response.Ok none
  | Except.error e => Response.Err (displayError e)

def handleRm : Except KvsError Unit → Response
  | Except.ok _ => Response.Ok none
  | Except.error KvsError.KeyNotFound => Response.Err "Key not found"
  | Except.error e => Response.Err (displayError e)

def handleRequest (s : EngineState) : Command → Response × EngineState
  | Command.Set k v => (handleSet (setOp s k v).1, (setOp s k v).2)
  | Command.Get k => (handleGet (getOp s k), s)
  | Command.Rm k => (handleRm (removeOp s k).1, (removeOp s k).2)

/-! ## The shared-queue thread pool (claim C9) -/

/-- A task is abstracted by whether its closure panics. -/
inductive TaskSpec where
  | ok
  | panics
deriving DecidableEq, Repr

/-- `sharedq_tp.rs`: `enum Message { Task(..), Shutdown }`. -/
inductive PoolMsg where
  | task (t : TaskSpec)
  | shutdown
deriving DecidableEq, Repr

/-- `TaskHandler::run` applied to the messages this worker will receive:
`while let Message::Task(task) = recv { task() }`.  Returns whether the
worker's thread is panicking when `run` is left (`some true` after a task
panic, `some false` after `Shutdown`, `none` while still blocked on
`recv`) together with the messages left on the queue. -/
def runHandler : List PoolMsg → Option Bool × List PoolMsg
  | [] => (none, [])
  | PoolMsg.task TaskSpec.ok :: rest => runHandler rest
  | PoolMsg.task TaskSpec.panics :: rest => (some true, rest)
  | PoolMsg.shutdown :: rest => (some false, rest)

/-- `impl Drop for TaskHandler`: during teardown, a replacement worker on
the same receiver is spawned iff `thread::panicking()`. -/
def replacementsSpawned (panicking : Bool) : Nat := if panicking then 1 else 0

/-- Pool size after one worker exits and its handler is dropped. -/
def workersAfterExit (w : Nat) (panicking : Bool) : Nat :=
  w - 1 + replacementsSpawned panicking

/-- `impl Drop for SharedQueueThreadPool`: send one `Shutdown` per
worker (`for _ in 0..self.num_threads`). -/
def poolDropSends : Nat → List PoolMsg
  | 0 => []
  | n + 1 => PoolMsg.shutdown :: poolDropSends n

theorem poolDropSends_eq_replicate (n : Nat) :
    poolDropSends n = List.replicate n PoolMsg.shutdown := by
  induction n with
  | zero => rfl
  | succ m ih => rw [poolDropSends, ih, List.replicate_succ]

/-! ## The segment order the specification prescribes (claim C2)

Modelled from the spec: the claim says the keydir is rebuilt "by
sequentially deserializing every segment in id order"; `sortById` orders
the directory by segment id, to be compared with the code's
`get_sorted_log_files`, which sorts by filename. -/

def insertById (f : LogFile) : List LogFile → List LogFile
  | [] => [f]
  | g :: gs => if g.id ≤ f.id then g :: insertById f gs else f :: g :: gs

def sortById : List LogFile → List LogFile
  | [] => []
  | f :: fs => insertById f (sortById fs)

/-- A clean-shutdown directory produced by the modelled engine itself:
set `k`, compact (leaving the compacted segment `#2.log` holding the old
record and the fresh write segment `?1.log`), then set `k` again so the
newer record lands in the write segment, whose id 1 is below the
compacted segment's id 2. -/
def cexState : EngineState :=
  (setOp (compactLogs (runOps [Op.set "k" "old"])).2 "k" "new").2

def cexDir : List LogFile := cexState.files

/-! ## Helper lemmas shared by the claim theorems -/

theorem getOp_runOps (ops : List Op) (k : String) :
    getOp (runOps ops) k = Except.ok (runVal ops k) := by
  obtain ⟨hinv, hview⟩ := runOps_spec ops
  rw [getOp_eq_view _ hinv.kdOk k, hview k]

theorem kdGet_none_of_runVal_none (ops : List Op) (k : String)
    (h : runVal ops k = none) : kdGet (runOps ops).keyDir k = none := by
  obtain ⟨hinv, hview⟩ := runOps_spec ops
  cases hq : kdGet (runOps ops).keyDir k with
  | none => rfl
  | some p =>
    obtain ⟨v, hv⟩ := hinv.kdOk k p hq
    have hsome : kdView (runOps ops).files (runOps ops).keyDir k = some v := by
      unfold kdView
      rw [hq]
      show (valAt (runOps ops).files p : Option String) = some v
      unfold valAt
      rw [hv]
    rw [hview k, h] at hsome
    exact absurd hsome (by simp)

/-! ## The claims -/

/-- C1: every run of engine calls ending in a successful `set(k, v)` with
no later call touching `k` answers `get(k)` with `Ok(Some(v))` — in
particular `set(k, v1); set(k, v2); get(k)` yields `Some(v2)` — and `set`
never fails on a reachable store, in particular not for a key that
already exists. -/
theorem claim_C1_set_then_get (ops1 ops2 : List Op) (k v : String)
    (h : ∀ op ∈ ops2, opKey op ≠ k) :
    getOp (runOps (ops1 ++ Op.set k v :: ops2)) k = Except.ok (some v) ∧
    (setOp (runOps ops1) k v).1 = Except.ok () := by
  constructor
  · rw [getOp_runOps, runVal_last_set _ _ _ _ h]
  · exact (setOp_spec _ k v (runOps_spec ops1).1).1

theorem claim_C1_set_then_get_witness :
    (∀ op ∈ [Op.set "b" "1"], opKey op ≠ "a") ∧
    getOp (runOps ([Op.set "a" "0"] ++ Op.set "a" "x" :: [Op.set "b" "1"])) "a" =
      Except.ok (some "x") ∧
    (setOp (runOps [Op.set "a" "0"]) "a" "x").1 = Except.ok () :=
  ⟨by decide,
   (claim_C1_set_then_get [Op.set "a" "0"] [Op.set "b" "1"] "a" "x" (by decide)).1,
   (claim_C1_set_then_get [Op.set "a" "0"] [Op.set "b" "1"] "a" "x" (by decide)).2⟩

/-- C2 (counterexample): the keydir is not rebuilt in segment-id order.
`cexDir` is the clean-shutdown directory the engine itself produces from
set-compact-set: the write segment `?1.log` holds the newest record while
the compacted segment `#2.log` holds the superseded one.  The code scans
in sorted-filename order (compacted first: ids `[2, 1]`) and correctly
answers `"new"`; replaying in segment-id order (`[1, 2]`) would answer
the stale `"old"`. -/
theorem claim_C2_counterexample :
    openGet cexDir "k" = Except.ok (some "new") ∧
    getOp cexState "k" = Except.ok (some "new") ∧
    replayFiles (fun _ => none) (sortById cexDir) "k" = some "old" ∧
    (sortByName cexDir).map LogFile.id = [2, 1] ∧
    (sortById cexDir).map LogFile.id = [1, 2] ∧
    ¬ (some "old" = (some "new" : Option String)) :=
  ⟨by decide, by decide, by decide, by decide, by decide, by decide⟩

/-- C2 (amended): `open` scans the segments in sorted-filename order
(compacted segments before the write segment), and after reopening the
directory left by any clean run, `get` returns exactly the value of the
last committed `set` on each key, or `None` if the last committed
operation on it was a `remove`. -/
theorem claim_C2_clean_reopen (ops : List Op) (k : String) :
    openGet (runOps ops).files k = Except.ok (runVal ops k) :=
  openGet_runOps ops k

/-- C3: after any `remove(k)` (successful or not) a subsequent `get(k)`
returns `Ok(None)`; and `remove(k)` on an absent key returns the
`KeyNotFound` error, leaves the state unchanged, and `get(k)` still
yields `None`. -/
theorem claim_C3_remove_then_get (ops : List Op) (k : String) :
    getOp (runOps (ops ++ [Op.remove k])) k = Except.ok none ∧
    (runVal ops k = none →
      removeOp (runOps ops) k = (Except.error KvsError.KeyNotFound, runOps ops) ∧
      getOp (runOps ops) k = Except.ok none) := by
  constructor
  · rw [getOp_runOps, runVal_last_remove]
  · intro habs
    have hnone := kdGet_none_of_runVal_none ops k habs
    refine ⟨((removeOp_spec (runOps ops) k (runOps_spec ops).1).2.1 hnone), ?_⟩
    rw [getOp_runOps, habs]

theorem claim_C3_remove_then_get_witness :
    runVal [Op.set "b" "1"] "a" = none ∧
    getOp (runOps ([Op.set "b" "1"] ++ [Op.remove "a"])) "a" = Except.ok none ∧
    removeOp (runOps [Op.set "b" "1"]) "a" =
      (Except.error KvsError.KeyNotFound, runOps [Op.set "b" "1"]) :=
  ⟨by decide, (claim_C3_remove_then_get [Op.set "b" "1"] "a").1,
   ((claim_C3_remove_then_get [Op.set "b" "1"] "a").2 (by decide)).1⟩

/-- C4: on a reachable store, `compact_logs` succeeds, `get` returns the
same result for every key before and after it, and no file of the
pre-compaction victim set (the sorted directory snapshot) survives. -/
theorem claim_C4_compaction_preserves_get (s : EngineState) (h : Inv s) :
    (compactLogs s).1 = Except.ok () ∧
    (∀ k, getOp (compactLogs s).2 k = getOp s k) ∧
    (∀ f ∈ sortByName s.files, f ∉ (compactLogs s).2.files) := by
  obtain ⟨hok, hinv, hview, hfiles, _⟩ := compactLogs_spec s h
  refine ⟨hok, ?_, ?_⟩
  · intro k
    rw [getOp_eq_view _ hinv.kdOk k, getOp_eq_view _ h.kdOk k, hview k]
  · intro f hf hmem
    have hlt : f.id < s.logCounter := h.idsLt f (mem_sortByName.mp hf)
    rw [hfiles] at hmem
    rcases List.mem_cons.mp hmem with rfl | hmem2
    · exact absurd hlt (Nat.lt_irrefl _)
    · rcases List.mem_cons.mp hmem2 with rfl | hmem3
      · have hlt2 : s.logCounter + 1 < s.logCounter := hlt
        omega
      · simp at hmem3

theorem claim_C4_compaction_preserves_get_witness :
    Inv (runOps [Op.set "a" "1", Op.set "a" "2"]) ∧
    (compactLogs (runOps [Op.set "a" "1", Op.set "a" "2"])).1 = Except.ok () ∧
    getOp (compactLogs (runOps [Op.set "a" "1", Op.set "a" "2"])).2 "a" =
      getOp (runOps [Op.set "a" "1", Op.set "a" "2"]) "a" :=
  ⟨(runOps_spec [Op.set "a" "1", Op.set "a" "2"]).1,
   (claim_C4_compaction_preserves_get _ (runOps_spec [Op.set "a" "1", Op.set "a" "2"]).1).1,
   (claim_C4_compaction_preserves_get _
     (runOps_spec [Op.set "a" "1", Op.set "a" "2"]).1).2.1 "a"⟩

/-- C5: opening a directory whose last sorted segment carries a torn tail
succeeds; the first region that fails to deserialize ends the scan of
that segment only (later regions of it are ignored), and the rebuilt
keydir equals the one obtained from the segment truncated at the tear,
so every complete record before the tear is recovered. -/
theorem claim_C5_torn_tail (d fs1 : List LogFile) (st id n : Nat) (good rest : List Chunk)
    (hsort : sortByName d = fs1 ++ [⟨st, id, good ++ Chunk.bad n :: rest⟩])
    (hgood1 : ∀ f ∈ fs1, ∀ ch ∈ f.data, chunkGood ch = true)
    (hgood2 : ∀ ch ∈ good, chunkGood ch = true) :
    (openDir d).toOption.isSome = true ∧
    buildKeyDir (sortByName d) = buildKeyDir (fs1 ++ [⟨st, id, good⟩]) := by
  have heq : buildKeyDir (sortByName d) = buildKeyDir (fs1 ++ [⟨st, id, good⟩]) := by
    rw [hsort]
    exact buildKeyDirFrom_torn st id n good rest fs1 ([], 0, 0)
  refine ⟨?_, heq⟩
  have hgd : ∀ f ∈ fs1 ++ [(⟨st, id, good⟩ : LogFile)], ∀ ch ∈ f.data, chunkGood ch = true := by
    intro f hf
    rcases List.mem_append.mp hf with hf | hf
    · exact hgood1 f hf
    · rw [List.mem_singleton] at hf
      subst hf
      intro ch hch
      exact hgood2 ch hch
  obtain ⟨⟨kd2, unc2, cnt2⟩, hb⟩ := buildKeyDirFrom_ok _ hgd ([], 0, 0)
  unfold openDir
  rw [heq]
  rw [show buildKeyDir (fs1 ++ [(⟨st, id, good⟩ : LogFile)]) =
    Except.ok (kd2, unc2, cnt2) from hb]
  rfl

theorem claim_C5_torn_tail_witness :
    (sortByName [(⟨LOG_WRITE, 0, [Chunk.ok (Command.Set "a" "1"), Chunk.bad 3]⟩ : LogFile)] =
      [] ++ [⟨LOG_WRITE, 0, [Chunk.ok (Command.Set "a" "1")] ++ Chunk.bad 3 :: []⟩]) ∧
    (openDir [(⟨LOG_WRITE, 0,
      [Chunk.ok (Command.Set "a" "1"), Chunk.bad 3]⟩ : LogFile)]).toOption.isSome = true ∧
    buildKeyDir (sortByName
        [(⟨LOG_WRITE, 0, [Chunk.ok (Command.Set "a" "1"), Chunk.bad 3]⟩ : LogFile)]) =
      buildKeyDir ([] ++ [⟨LOG_WRITE, 0, [Chunk.ok (Command.Set "a" "1")]⟩]) :=
  ⟨by decide,
   (claim_C5_torn_tail _ [] LOG_WRITE 0 3 [Chunk.ok (Command.Set "a" "1")] []
     (by decide) (by intro f hf; simp at hf) (by decide)).1,
   (claim_C5_torn_tail _ [] LOG_WRITE 0 3 [Chunk.ok (Command.Set "a" "1")] []
     (by decide) (by intro f hf; simp at hf) (by decide)).2⟩

/-- C6 (counterexample): after `set("a","x"); remove("a")` the
uncompacted-bytes counter has grown by exactly the removed entry's record
size; the claim's value — that size plus the size of the appended
`Remove` command itself — is not what the code computes. -/
theorem claim_C6_counterexample :
    (runOps [Op.set "a" "x", Op.remove "a"]).uncompacted =
      (runOps [Op.set "a" "x"]).uncompacted + cmdSize (Command.Set "a" "x") ∧
    0 < cmdSize (Command.Rm "a") ∧
    (runOps [Op.set "a" "x", Op.remove "a"]).uncompacted ≠
      (runOps [Op.set "a" "x"]).uncompacted + cmdSize (Command.Set "a" "x") +
        cmdSize (Command.Rm "a") :=
  ⟨by decide, by decide, by decide⟩

/-- C6 (amended): while the running total stays below the compaction
threshold, a successful `remove(k)` of a present key increases the
uncompacted-bytes counter by exactly the removed entry's record size (the
size of the appended `Remove` command is not added), and a `set(k, v)`
overwriting an existing key increases it by exactly the prior record's
size. -/
theorem claim_C6_uncompacted_accounting (s : EngineState) (k v : String) (p : LogPointer)
    (hp : kdGet s.keyDir k = some p)
    (hth : s.uncompacted + p.size < COMPACT_THRESHOLD) :
    (removeOp s k).2.uncompacted = s.uncompacted + p.size ∧
    (setOp s k v).2.uncompacted = s.uncompacted + p.size := by
  have hiss : (kdGet s.keyDir k).isSome = true := by
    rw [hp]
    rfl
  constructor
  · have h1 : removeOp s k = updateUncompacted
        { s with files := appendToFile s.files s.writerLog (Command.Rm k),
                 writerPos := s.writerPos + cmdSize (Command.Rm k),
                 keyDir := kdRemove s.keyDir k } (kdGet s.keyDir k) := by
      unfold removeOp
      rw [if_pos hiss]
      rfl
    rw [h1, hp]
    show ((if COMPACT_THRESHOLD ≤ s.uncompacted + p.size then _ else _ :
        Except KvsError Unit × EngineState)).2.uncompacted = _
    rw [if_neg (by omega)]
  · unfold setOp
    rw [show extractKey (Command.Set k v) = k from rfl, hp]
    show ((if COMPACT_THRESHOLD ≤ s.uncompacted + p.size then _ else _ :
        Except KvsError Unit × EngineState)).2.uncompacted = _
    rw [if_neg (by omega)]

theorem claim_C6_uncompacted_accounting_witness :
    kdGet (runOps [Op.set "a" "x"]).keyDir "a" = some (⟨0, 22, 0, 1⟩ : LogPointer) ∧
    (runOps [Op.set "a" "x"]).uncompacted + 22 < COMPACT_THRESHOLD ∧
    (removeOp (runOps [Op.set "a" "x"]) "a").2.uncompacted =
      (runOps [Op.set "a" "x"]).uncompacted + 22 ∧
    (setOp (runOps [Op.set "a" "x"]) "a" "y").2.uncompacted =
      (runOps [Op.set "a" "x"]).uncompacted + 22 :=
  ⟨by decide, by decide,
   (claim_C6_uncompacted_accounting _ "a" "y" ⟨0, 22, 0, 1⟩ (by decide) (by decide)).1,
   (claim_C6_uncompacted_accounting _ "a" "y" ⟨0, 22, 0, 1⟩ (by decide) (by decide)).2⟩

/-- C7: the pointer is not read or written atomically as a whole, and the
migration overwrite is unconditional.  First conjunct: the three
migration stores clobber whatever the cells currently hold — there is no
compare-and-set against the compactor's source pointer, so a pointer a
concurrent `set` just published is overwritten back to the stale
compacted location.  Remaining conjuncts: a valid interleaving of
`read_log`'s loads with the migration's stores observes the old segment
id together with the new offset — a torn pointer unequal to both the old
and the new pointer value. -/
theorem claim_C7_pointer_not_atomic :
    (∀ (c : PtrCells) (p l : Nat),
      runStores c (migrationStores p l) = ⟨p, l, LOG_COMP⟩) ∧
    validSchedule tornSchedule (migrationStores 100 7) readerLoads ∧
    (execSched ⟨0, 5, LOG_WRITE⟩ ⟨none, none, none⟩ tornSchedule).2 =
      ⟨some 5, some LOG_WRITE, some 100⟩ ∧
    (⟨some 5, some LOG_WRITE, some 100⟩ : ReadObs) ≠ quietObs ⟨0, 5, LOG_WRITE⟩ ∧
    (⟨some 5, some LOG_WRITE, some 100⟩ : ReadObs) ≠ quietObs ⟨100, 7, LOG_COMP⟩ := by
  refine ⟨fun c p l => rfl, ⟨by decide, by decide⟩, by decide, by decide, by decide⟩

/-- C8: the handler produces exactly one response per request, determined
by the engine result: a GET hit answers `Ok(Some(value))`, a GET miss
answers `Ok(Some("Key not found"))` and never `Ok(None)`, and a REMOVE of
an absent key answers `Err("Key not found")`. -/
theorem claim_C8_handler_responses (s : EngineState) (k : String) :
    (∀ v, getOp s k = Except.ok (some v) →
      (handleRequest s (Command.Get k)).1 = Response.Ok (some v)) ∧
    (getOp s k = Except.ok none →
      (handleRequest s (Command.Get k)).1 = Response.Ok (some "Key not found")) ∧
    ((handleRequest s (Command.Get k)).1 ≠ Response.Ok none) ∧
    (kdGet s.keyDir k = none →
      (handleRequest s (Command.Rm k)).1 = Response.Err "Key not found") := by
  refine ⟨?_, ?_, ?_, ?_⟩
  · intro v hv
    show handleGet (getOp s k) = _
    rw [hv]
    rfl
  · intro hv
    show handleGet (getOp s k) = _
    rw [hv]
    rfl
  · show handleGet (getOp s k) ≠ _
    cases hg : getOp s k with
    | ok o =>
      cases o with
      | some v => simp [handleGet]
      | none => simp [handleGet]
    | error e => simp [handleGet]
  · intro hnone
    have h1 : removeOp s k = (Except.error KvsError.KeyNotFound, s) := by
      unfold removeOp
      rw [if_neg (by rw [hnone]; simp)]
    show handleRm (removeOp s k).1 = _
    rw [h1]
    rfl

theorem claim_C8_handler_responses_witness :
    getOp (runOps [Op.set "a" "1"]) "a" = Except.ok (some "1") ∧
    (handleRequest (runOps [Op.set "a" "1"]) (Command.Get "a")).1 = Response.Ok (some "1") ∧
    getOp (runOps [Op.set "a" "1"]) "b" = Except.ok none ∧
    (handleRequest (runOps [Op.set "a" "1"]) (Command.Get "b")).1 =
      Response.Ok (some "Key not found") ∧
    kdGet (runOps [Op.set "a" "1"]).keyDir "b" = none ∧
    (handleRequest (runOps [Op.set "a" "1"]) (Command.Rm "b")).1 =
      Response.Err "Key not found" :=
  ⟨by decide,
   (claim_C8_handler_responses (runOps [Op.set "a" "1"]) "a").1 "1" (by decide),
   by decide,
   (claim_C8_handler_responses (runOps [Op.set "a" "1"]) "b").2.1 (by decide),
   by decide,
   (claim_C8_handler_responses (runOps [Op.set "a" "1"]) "b").2.2.2 (by decide)⟩

/-- C9: a worker that panics while executing a task leaves the run loop
panicking with the rest of the queue intact, and its teardown spawns one
replacement on the same receiver, preserving the pool's worker count; a
worker that exits normally after `Shutdown` is not replaced; dropping a
pool of size `N` sends exactly `N` `Shutdown` messages. -/
theorem claim_C9_pool_panic_resilience (w : Nat) (q : List PoolMsg) (hw : 0 < w) :
    runHandler (PoolMsg.task TaskSpec.panics :: q) = (some true, q) ∧
    workersAfterExit w true = w ∧
    runHandler (PoolMsg.shutdown :: q) = (some false, q) ∧
    workersAfterExit w false = w - 1 ∧
    poolDropSends w = List.replicate w PoolMsg.shutdown ∧
    (poolDropSends w).length = w := by
  refine ⟨rfl, ?_, rfl, rfl, poolDropSends_eq_replicate w, ?_⟩
  · show w - 1 + 1 = w
    omega
  · rw [poolDropSends_eq_replicate]
    exact List.length_replicate _ _

theorem claim_C9_pool_panic_resilience_witness :
    0 < 4 ∧
    runHandler (PoolMsg.task TaskSpec.panics :: [PoolMsg.task TaskSpec.ok]) =
      (some true, [PoolMsg.task TaskSpec.ok]) ∧
    workersAfterExit 4 true = 4 ∧
    workersAfterExit 4 false = 3 ∧
    poolDropSends 4 = List.replicate 4 PoolMsg.shutdown :=
  ⟨by decide,
   (claim_C9_pool_panic_resilience 4 [PoolMsg.task TaskSpec.ok] (by decide)).1,
   (claim_C9_pool_panic_resilience 4 [PoolMsg.task TaskSpec.ok] (by decide)).2.1,
   (claim_C9_pool_panic_resilience 4 [PoolMsg.task TaskSpec.ok] (by decide)).2.2.2.1,
   (claim_C9_pool_panic_resilience 4 [PoolMsg.task TaskSpec.ok] (by decide)).2.2.2.2.1⟩

/-- C10: `remove(k)` failing with `KeyNotFound` returns with the engine
state exactly as it was: same files (no appended bytes), same keydir,
same uncompacted-bytes counter. -/
theorem claim_C10_remove_absent_unchanged (s : EngineState) (k : String)
    (h : kdGet s.keyDir k = none) :
    removeOp s k = (Except.error KvsError.KeyNotFound, s) := by
  unfold removeOp
  rw [if_neg (by rw [h]; simp)]

theorem claim_C10_remove_absent_unchanged_witness :
    kdGet (runOps [Op.set "b" "1"]).keyDir "a" = none ∧
    removeOp (runOps [Op.set "b" "1"]) "a" =
      (Except.error KvsError.KeyNotFound, runOps [Op.set "b" "1"]) :=
  ⟨by decide, claim_C10_remove_absent_unchanged (runOps [Op.set "b" "1"]) "a" (by decide)⟩

end Kvs
